import Mathlib

/-!
Verification of dlconflict.

A shallow embedding of `dlconflict.c` (a run-time detector of dynamic symbol
conflicts) together with theorems about its sort, its conflict scan, its
segment validator, its hash-table symbol counter, and the scanner and
collector of `callback`.

Conventions of the embedding

* A C string is the list of its bytes; the end of the list stands for the
  terminating NUL, and a NUL byte inside the list ends the string as in C.
* An array of `struct entry` is a `List entry`; an index is an `Int` as in the
  source (`int low, high, i, j`), read through `rd`.
* Recursion and loops whose exit depends on the data take a fuel argument and
  return `none` when the fuel runs out; the theorems show that the fuel handed
  over by the callers is always enough.
* Machine words are natural numbers reduced modulo `2 ^ 64` (addresses) or
  `2 ^ 32` (hash-table words) where the source computes in them.
* Memory that the program reads through a pointer is a list of the mapped
  items from that address on; a read past its end returns `none`.
-/

namespace Dlconflict

/-! ## Data model -/

/-- Value of `STB_GLOBAL` in `elf.h`. -/
def STB_GLOBAL : Nat := 1

/-- Value of `STB_LOCAL` in `elf.h`. -/
def STB_LOCAL : Nat := 0

/-- The record `struct entry`: owning module, symbol name, and the three
`unsigned char` fields. -/
structure entry where
  src : String
  name : List Nat
  type : Nat
  bind : Nat
  is_defined : Nat
deriving DecidableEq, Repr, Inhabited

/-- Read `arr[k]` for an `int` index `k`. -/
def rd (arr : List entry) (k : Int) : entry :=
  arr.getD k.toNat default

/-! ## Comparison -/

/-- The library function `strcmp` on NUL-terminated byte strings: the difference
of the first pair of bytes that differ, `0` when the strings agree up to
their terminator. Only the sign is used by the program. -/
def strcmp : List Nat → List Nat → Int
  | [], [] => 0
  | [], b :: _ => -(b : Int)
  | a :: _, [] => (a : Int)
  | a :: as, b :: bs =>
    if a ≠ b then (a : Int) - (b : Int)
    else if a = 0 then 0
    else strcmp as bs

/-- The comparator `cmp_entry`: tuple order on name, bind, is_defined, type. -/
def cmp_entry (left right : entry) : Int :=
  let a := strcmp left.name right.name
  let b := (left.bind : Int) - (right.bind : Int)
  let c := (left.is_defined : Int) - (right.is_defined : Int)
  let d := (left.type : Int) - (right.type : Int)
  if a ≠ 0 then a
  else if b ≠ 0 then b
  else if c ≠ 0 then c
  else d

/-! ## Sorting -/

/-- The three `memmove`s of `swap_entry` on `arr + left` and `arr + right`. -/
def swap_entry (arr : List entry) (left right : Int) : List entry :=
  let tmp := rd arr left
  let arr1 := arr.set left.toNat (rd arr right)
  arr1.set right.toNat tmp

/-- The `for` loop of `entry_partition`; `n` counts the iterations that are
left, `j` runs from `low` to `high - 1`. -/
def partition_loop (high : Int) : Nat → List entry → Int → Int → List entry × Int
  | 0, arr, i, _ => (arr, i)
  | n + 1, arr, i, j =>
    if cmp_entry (rd arr j) (rd arr high) < 0 then
      partition_loop high n (swap_entry arr (i + 1) j) (i + 1) (j + 1)
    else
      partition_loop high n arr i (j + 1)

/-- Lomuto partition `entry_partition`: returns the array and the pivot's
final index. -/
def entry_partition (arr : List entry) (low high : Int) : List entry × Int :=
  let r := partition_loop high (high - low).toNat arr (low - 1) low
  (swap_entry r.1 (r.2 + 1) high, r.2 + 1)

/-- The recursive `entry_quicksort`; `none` when the fuel runs out. -/
def entry_quicksort : Nat → List entry → Int → Int → Option (List entry)
  | 0, _, _, _ => none
  | fuel + 1, arr, low, high =>
    if low ≥ high then some arr
    else
      let p := entry_partition arr low high
      match entry_quicksort fuel p.1 low (p.2 - 1) with
      | none => none
      | some arr1 => entry_quicksort fuel arr1 (p.2 + 1) high

/-- The call made by `init`: `entry_quicksort(vec.data, 0, vec.n - 1)`. -/
def sort_vec (v : List entry) : Option (List entry) :=
  entry_quicksort (v.length + 1) v 0 ((v.length : Int) - 1)

/-! ## Conflict scan -/

/-- The predicate `conflict_condition`. -/
def conflict_condition (a b : entry) : Bool :=
  strcmp a.name b.name == 0 &&
  a.bind == b.bind &&
  a.bind == STB_GLOBAL &&
  a.is_defined != 0

/-- The inner loop of `entry_vec_stats` that measures a group:
`for (k = i; k < n - 1 && conflict_condition(v[k], v[k+1]); k++) count++`. -/
def count_loop (v : List entry) : Nat → Int → Int → Option Int
  | 0, _, _ => none
  | fuel + 1, k, count =>
    if k < (v.length : Int) - 1 ∧ conflict_condition (rd v k) (rd v (k + 1)) = true then
      count_loop v fuel (k + 1) (count + 1)
    else some count

/-- The members printed for one group: `v[i + j]` for `j = 0 .. count - 1`. -/
def group_at (v : List entry) (i count : Int) : List entry :=
  (List.range count.toNat).map (fun (j : Nat) => rd v (i + (j : Int)))

/-- The outer loop of `entry_vec_stats`, from cursor `i`; the result is the
list of reported groups, in the order in which they are printed. -/
def stats_loop (v : List entry) : Nat → Int → Option (List (List entry))
  | 0, _ => none
  | fuel + 1, i =>
    if i < (v.length : Int) - 1 then
      if conflict_condition (rd v i) (rd v (i + 1)) = true then
        match count_loop v (v.length + 1) i 1 with
        | none => none
        | some count =>
          match stats_loop v fuel (i + count + 1) with
          | none => none
          | some rest => some (group_at v i count :: rest)
      else stats_loop v fuel (i + 1)
    else some []

/-- The scan `entry_vec_stats` over the whole vector. -/
def entry_vec_stats (v : List entry) : Option (List (List entry)) :=
  stats_loop v (v.length + 1) 0

/-- The body of `init` after collection: sort, then scan. -/
def detect (v : List entry) : Option (List (List entry)) :=
  match sort_vec v with
  | none => none
  | some s => entry_vec_stats s

/-! ## Specification vocabulary for the sort -/

/-- What a step working inside the index range `lo .. hi1 - 1` may do to an
array: keep its length, permute it, leave every index outside the range alone,
and keep inside the range only values that were inside it. -/
def Frame (lo hi1 : Nat) (a b : List entry) : Prop :=
  b.length = a.length ∧ b.Perm a ∧
  (∀ k : Nat, (k < lo ∨ hi1 ≤ k) → rd b k = rd a k) ∧
  (∀ P : entry → Prop, (∀ k : Nat, lo ≤ k → k < hi1 → P (rd a k)) →
    ∀ k : Nat, lo ≤ k → k < hi1 → P (rd b k))

/-- The array is sorted by `cmp_entry` on the index range `lo .. hi1 - 1`. -/
def SortedRange (lo hi1 : Nat) (a : List entry) : Prop :=
  ∀ i j : Nat, lo ≤ i → i < j → j < hi1 → cmp_entry (rd a i) (rd a j) ≤ 0

/-! ## Specification vocabulary for the scan -/

/-- The entries at positions `a` and `a + 1` exist and satisfy
`conflict_condition`: the test made by both loops of `entry_vec_stats`. -/
def ConfAt (v : List entry) (a : Nat) : Prop :=
  a + 1 < v.length ∧ conflict_condition (rd v (a : Int)) (rd v ((a : Int) + 1)) = true

/-- An entry that can take part in a conflict on the name `nm`: same name,
global binding, defined. -/
def qualifies (nm : List Nat) (e : entry) : Bool :=
  strcmp e.name nm == 0 && e.bind == STB_GLOBAL && e.is_defined != 0

/-- Follows the spec's words (the reformulation of §8): the maximal contiguous
runs of two or more entries that share a name and are each globally bound and
defined, in the order in which they occur. -/
def conflict_runs (s : List entry) : List (List entry) :=
  (s.splitBy (fun a b => qualifies a.name a && qualifies a.name b)).filter
    (fun g => decide (2 ≤ g.length))

/-! ## Concrete collections -/

/-- The function symbol `a`, global and defined, as collected from `libA.so`. -/
def sym_a_A : entry := { src := "libA.so", name := [97], type := 2, bind := 1, is_defined := 1 }

/-- The function symbol `a`, global and defined, as collected from `libB.so`. -/
def sym_a_B : entry := { src := "libB.so", name := [97], type := 2, bind := 1, is_defined := 1 }

/-- The function symbol `b`, global and defined, as collected from `libA.so`. -/
def sym_b_A : entry := { src := "libA.so", name := [98], type := 2, bind := 1, is_defined := 1 }

/-- The function symbol `b`, global and defined, as collected from `libB.so`. -/
def sym_b_B : entry := { src := "libB.so", name := [98], type := 2, bind := 1, is_defined := 1 }

/-- The function symbol `a`, global and defined, as collected from `libC.so`. -/
def sym_a_C : entry := { src := "libC.so", name := [97], type := 2, bind := 1, is_defined := 1 }

/-- Two modules that both define the global symbols `a` and `b`, in the order in
which `callback` collects them (module by module). -/
def two_modules_two_symbols : List entry := [sym_a_A, sym_b_A, sym_a_B, sym_b_B]

/-- Three modules that each define the global symbol `a`. -/
def three_modules_one_symbol : List entry := [sym_a_A, sym_a_B, sym_a_C]

/-! ## Segment validator -/

/-- Value of `PT_LOAD` in `elf.h`. -/
def PT_LOAD : Nat := 1

/-- Value of `PT_DYNAMIC` in `elf.h`. -/
def PT_DYNAMIC : Nat := 2

/-- The fields of a program header `ElfW(Phdr)` that the program reads. -/
structure Phdr where
  p_type : Nat
  p_vaddr : Nat
  p_memsz : Nat
deriving DecidableEq, Repr, Inhabited

/-- The `for` loop of `dynamic_pointer` over `header[0 .. headers - 1]`; the
sums are `ElfW(Addr)` values, so they wrap at `2 ^ 64`. -/
def dynamic_pointer_loop (addr base : Nat) : List Phdr → Nat
  | [] => 0
  | h :: hs =>
    if h.p_type = PT_LOAD ∧ addr ≥ (base + h.p_vaddr) % 2 ^ 64 ∧
        addr < (base + h.p_vaddr + h.p_memsz) % 2 ^ 64 then addr
    else dynamic_pointer_loop addr base hs

/-- The validator `dynamic_pointer`; the result `0` is `NULL`. -/
def dynamic_pointer (addr base : Nat) (header : List Phdr) : Nat :=
  if addr ≠ 0 then dynamic_pointer_loop addr base header else 0

/-- Follows the spec's words: the segment `h` is loadable and satisfies
`start <= address - module_base < start + memory_size`. -/
def in_segment (addr base : Nat) (h : Phdr) : Bool :=
  h.p_type == PT_LOAD &&
  decide ((h.p_vaddr : Int) ≤ (addr : Int) - (base : Int)) &&
  decide ((addr : Int) - (base : Int) < (h.p_vaddr : Int) + (h.p_memsz : Int))

/-- A loadable segment whose start offset is a wrapped negative number, one page
below the base: `base + p_vaddr` is `4096` modulo `2 ^ 64` for `base = 8192`. -/
def wrapped_segment : Phdr :=
  { p_type := PT_LOAD, p_vaddr := 2 ^ 64 - 4096, p_memsz := 8192 }

/-- A loadable segment that starts at the module base. -/
def first_page : Phdr := { p_type := PT_LOAD, p_vaddr := 0, p_memsz := 4096 }

/-- A loadable segment whose last bytes would lie past the end of the address
space: `p_vaddr + p_memsz` is `2` modulo `2 ^ 64`. -/
def end_segment : Phdr := { p_type := PT_LOAD, p_vaddr := 2 ^ 64 - 2, p_memsz := 4 }

/-- A segment of a type other than `PT_LOAD` (`PT_NOTE`). -/
def note_segment : Phdr := { p_type := 4, p_vaddr := 0, p_memsz := 4096 }

/-! ## Hash-table symbol counter -/

/-- Conversion of a `uint32_t` value (given modulo `2 ^ 32`) to `int`. -/
def to_int (x : Int) : Int :=
  if x % 2 ^ 32 < 2 ^ 31 then x % 2 ^ 32 else x % 2 ^ 32 - 2 ^ 32

/-- Read the `uint32_t` at word index `idx` of the memory that starts at the
table pointer; `none` when the index lies outside the mapped words. -/
def word_at (table : List Nat) (idx : Int) : Option Nat :=
  if idx < 0 then none else table[idx.toNat]?

/-- The chain walk of `gnu_hashtab_symbol_count`:
`for (j = first; (chains[j] & 1) == 0; j++) even++`, with `chains` the word
index of `chains[0]`. -/
def chain_walk (table : List Nat) (chains : Nat) : Nat → Int → Int → Option Int
  | 0, _, _ => none
  | fuel + 1, j, even =>
    match word_at table ((chains : Int) + j) with
    | none => none
    | some w =>
      if w % 2 = 0 then chain_walk table chains fuel (j + 1) (even + 1) else some even

/-- The bucket loop of `gnu_hashtab_symbol_count`; `n` counts the iterations
that are left, `i` runs from `0` to `nbuckets - 1`. The comparison of the `int`
`bucket_max` with the `uint32_t` `max` is made on unsigned values. -/
def bucket_loop (table : List Nat) (buckets chains symoffset : Nat) : Nat → Nat → Nat → Option Nat
  | 0, _, max => some max
  | n + 1, i, max =>
    match word_at table ((buckets : Int) + (i : Int)) with
    | none => none
    | some b =>
      let bucket_max : Int := to_int (b : Int)
      let first : Int := to_int ((b : Int) - (symoffset : Int))
      match chain_walk table chains (table.length + 1) first 0 with
      | none => none
      | some even =>
        let bucket_max2 : Nat := ((bucket_max + even) % 2 ^ 32).toNat
        bucket_loop table buckets chains symoffset n (i + 1)
          (if bucket_max2 > max then bucket_max2 else max)

/-- The counter `gnu_hashtab_symbol_count` for `__WORDSIZE == 64` (a Bloom word
takes two table words); `none` when it reads outside the mapped words. -/
def gnu_hashtab_symbol_count (table : List Nat) : Option Nat :=
  match word_at table 0, word_at table 1, word_at table 2, word_at table 3 with
  | some nbuckets, some symoffset, some bloomsize, some _ =>
    let buckets := 4 + bloomsize * 2
    let chains := buckets + nbuckets
    bucket_loop table buckets chains symoffset nbuckets 0 0
  | _, _, _, _ => none

/-- Bucket `i` of a modern hash table is non-empty and its chain ends inside the
chain array at chain index `c`: the bucket stores `b >= symoffset`, the chain
entries from `b - symoffset` up to `c - 1` have their low bit clear and the entry
`c` has it set. `B` and `C` are the word indices of the bucket and chain arrays;
symbol indices fit an `int`. -/
def GnuBucket (table : List Nat) (B C so i c : Nat) : Prop :=
  ∃ b : Nat, table[B + i]? = some b ∧ so ≤ b ∧ b - so ≤ c ∧ c + so < 2 ^ 31 ∧
    (∀ k : Nat, b - so ≤ k → k < c → ∃ w : Nat, table[C + k]? = some w ∧ w % 2 = 0) ∧
    (∃ w : Nat, table[C + c]? = some w ∧ w % 2 = 1)

/-- A modern hash table over a symbol table of `5` entries: two buckets, symbol
offset `1`, one Bloom word; bucket `0` holds the symbols `3, 4` and bucket `1` the
symbols `1, 2`. -/
def two_bucket_table : List Nat := [2, 1, 1, 6, 0, 0, 3, 1, 2, 3, 4, 5]

/-- The modern hash table of a module without exported symbols: one bucket,
which is empty (`0`), symbol offset `1`, one Bloom word, no chain entry. -/
def empty_bucket_table : List Nat := [1, 1, 1, 6, 0, 0, 0]

/-- The chain index at which the chain of each bucket of `two_bucket_table`
ends: `3` for bucket `0` (symbol `4`), `1` for bucket `1` (symbol `2`). -/
def two_bucket_ends (i : Nat) : Nat := if i = 0 then 3 else 1

/-! ## Dynamic-section scanner and symbol collector -/

/-- Value of `DT_NULL` in `elf.h`. -/
def DT_NULL : Int := 0

/-- Value of `DT_HASH` in `elf.h`. -/
def DT_HASH : Int := 4

/-- Value of `DT_STRTAB` in `elf.h`. -/
def DT_STRTAB : Int := 5

/-- Value of `DT_SYMTAB` in `elf.h`. -/
def DT_SYMTAB : Int := 6

/-- Value of `DT_GNU_HASH` in `elf.h`. -/
def DT_GNU_HASH : Int := 0x6ffffef5

/-- A dynamic entry `ElfW(Dyn)`: tag and pointer value. -/
structure Elf_Dyn where
  d_tag : Int
  d_ptr : Nat
deriving DecidableEq, Repr, Inhabited

/-- The fields of a symbol-table entry `ElfW(Sym)` that the program reads. -/
structure Elf_Sym where
  st_name : Nat
  st_info : Nat
  st_shndx : Nat
  st_value : Nat
deriving DecidableEq, Repr, Inhabited

/-- The process memory as the program reads it: the dynamic entries, hash-table
words and symbol-table entries mapped from an address on, and the C string
found at an address. A read past the end of a list is a read of unmapped
memory. -/
structure Memory where
  dyn : Nat → List Elf_Dyn
  words : Nat → List Nat
  symtab : Nat → List Elf_Sym
  str : Nat → List Nat

/-- The fields of `struct dl_phdr_info` that `callback` reads; `dlpi_phnum` is
the length of `dlpi_phdr`. -/
structure dl_phdr_info where
  dlpi_addr : Nat
  dlpi_name : String
  dlpi_phdr : List Phdr

/-- The growable vector `struct entry_vec`; `n` is the length of `data`. -/
structure entry_vec where
  data : List entry
  cap : Nat
deriving DecidableEq, Repr

/-- The function `entry_vec_init`. -/
def entry_vec_init : entry_vec := { data := [], cap := 8 }

/-- The function `entry_vec_push` (a successful `realloc` keeps the contents). -/
def entry_vec_push (v : entry_vec) (e : entry) : entry_vec :=
  { data := v.data ++ [e], cap := if v.data.length + 1 > v.cap then v.cap * 2 else v.cap }

/-- The locals `symtab`, `strtab` and `symbol_count` of `callback`; a pointer
`0` is `NULL`. -/
structure scan_state where
  symtab : Nat
  strtab : Nat
  symbol_count : Nat
deriving DecidableEq, Repr

/-- One turn of the `switch` on `entry->d_tag` in `callback`. -/
def dyn_step (mem : Memory) (base : Nat) (header : List Phdr) (e : Elf_Dyn)
    (st : scan_state) : Option scan_state :=
  if e.d_tag = DT_HASH then
    let hashtab := dynamic_pointer e.d_ptr base header
    if hashtab ≠ 0 then
      match (mem.words hashtab)[1]? with
      | none => none
      | some count =>
        some { st with symbol_count := if count > st.symbol_count then count else st.symbol_count }
    else some st
  else if e.d_tag = DT_GNU_HASH then
    let hashtab := dynamic_pointer e.d_ptr base header
    if hashtab ≠ 0 then
      match gnu_hashtab_symbol_count (mem.words hashtab) with
      | none => none
      | some count =>
        some { st with symbol_count := if count > st.symbol_count then count else st.symbol_count }
    else some st
  else if e.d_tag = DT_STRTAB then
    some { st with strtab := dynamic_pointer e.d_ptr base header }
  else if e.d_tag = DT_SYMTAB then
    some { st with symtab := dynamic_pointer e.d_ptr base header }
  else some st

/-- The walk `for (; entry->d_tag != DT_NULL; entry++)` over the dynamic
entries mapped at the segment's address. -/
def dyn_walk (mem : Memory) (base : Nat) (header : List Phdr) :
    List Elf_Dyn → scan_state → Option scan_state
  | [], _ => none
  | e :: rest, st =>
    if e.d_tag = DT_NULL then some st
    else
      match dyn_step mem base header e st with
      | none => none
      | some st1 => dyn_walk mem base header rest st1

/-- The record that `callback` builds from a symbol-table entry; the three
small fields are stored into `unsigned char`s. -/
def symbol_record (mem : Memory) (name : String) (strtab : Nat) (sym : Elf_Sym) : entry :=
  { src := name,
    name := mem.str (strtab + sym.st_name),
    bind := (sym.st_info / 16) % 256,
    type := (sym.st_info % 16) % 256,
    is_defined := sym.st_shndx % 256 }

/-- The collector loop `for (ElfW(Word) s = 0; s <= symbol_count; s++)`. -/
def collect_loop (mem : Memory) (info : dl_phdr_info) (st : scan_state) :
    Nat → Nat → entry_vec → Option entry_vec
  | 0, _, _ => none
  | fuel + 1, s, vec =>
    if s ≤ st.symbol_count then
      match (mem.symtab st.symtab)[s]? with
      | none => none
      | some sym =>
        let ptr := dynamic_pointer ((info.dlpi_addr + sym.st_value) % 2 ^ 64)
          info.dlpi_addr info.dlpi_phdr
        if ptr = 0 then collect_loop mem info st fuel ((s + 1) % 2 ^ 32) vec
        else collect_loop mem info st fuel ((s + 1) % 2 ^ 32)
          (entry_vec_push vec (symbol_record mem info.dlpi_name st.strtab sym))
    else some vec

/-- The body of the header loop of `callback` for one `PT_DYNAMIC` header. -/
def scan_segment (mem : Memory) (info : dl_phdr_info) (h : Phdr) (vec : entry_vec) :
    Option entry_vec :=
  match dyn_walk mem info.dlpi_addr info.dlpi_phdr
      (mem.dyn ((info.dlpi_addr + h.p_vaddr) % 2 ^ 64))
      { symtab := 0, strtab := 0, symbol_count := 0 } with
  | none => none
  | some st =>
    if st.symtab = 0 ∨ st.strtab = 0 ∨ st.symbol_count = 0 then some vec
    else collect_loop mem info st (st.symbol_count + 2) 0 vec

/-- The header loop `for (h = 0; h < headers; h++)` of `callback`. -/
def callback_loop (mem : Memory) (info : dl_phdr_info) : List Phdr → entry_vec → Option entry_vec
  | [], vec => some vec
  | h :: hs, vec =>
    if h.p_type ≠ PT_DYNAMIC then callback_loop mem info hs vec
    else
      match scan_segment mem info h vec with
      | none => none
      | some vec1 => callback_loop mem info hs vec1

/-- The function `callback`: the vector after the call and the returned status. -/
def callback (mem : Memory) (info : dl_phdr_info) (vec : entry_vec) : Option (entry_vec × Int) :=
  match callback_loop mem info info.dlpi_phdr vec with
  | none => none
  | some vec1 => some (vec1, 0)

/-- A hash-table entry of the dynamic section whose pointer passes
`dynamic_pointer`. -/
def usable_hash (base : Nat) (header : List Phdr) (e : Elf_Dyn) : Bool :=
  (e.d_tag == DT_HASH || e.d_tag == DT_GNU_HASH) && dynamic_pointer e.d_ptr base header != 0

/-- The dynamic entries in front of the `DT_NULL` sentinel. -/
def before_sentinel (dyn : List Elf_Dyn) : List Elf_Dyn :=
  dyn.takeWhile (fun e => e.d_tag != DT_NULL)

/-! ## Concrete modules -/

/-- Program headers of the example modules: one loadable page at the base and a
dynamic segment inside it. -/
def demo_headers : List Phdr :=
  [{ p_type := PT_LOAD, p_vaddr := 0, p_memsz := 4096 },
   { p_type := PT_DYNAMIC, p_vaddr := 512, p_memsz := 64 }]

/-- A module loaded at `4096`. -/
def demo_info : dl_phdr_info :=
  { dlpi_addr := 4096, dlpi_name := "libdemo.so", dlpi_phdr := demo_headers }

/-- String table of the example modules, mapped at `4400`: the names ``, `a`,
`b`, `c`, `d` at the offsets `0, 1, 3, 5, 7`. -/
def demo_str (a : Nat) : List Nat :=
  if a = 4401 then [97] else if a = 4403 then [98] else if a = 4405 then [99]
  else if a = 4407 then [100] else []

/-- Symbol table of the module with a modern hash table: the null symbol, the
functions `a` (section `12`) and `b` (section `256`), the undefined `c`, and `d`,
whose value lies outside the loaded page. -/
def gnu_symtab : List Elf_Sym :=
  [{ st_name := 0, st_info := 0, st_shndx := 0, st_value := 0 },
   { st_name := 1, st_info := 18, st_shndx := 12, st_value := 100 },
   { st_name := 3, st_info := 18, st_shndx := 256, st_value := 200 },
   { st_name := 5, st_info := 18, st_shndx := 0, st_value := 0 },
   { st_name := 7, st_info := 18, st_shndx := 12, st_value := 8192 }]

/-- Memory of a module whose dynamic section names a modern hash table
(`two_bucket_table`, at `4352`), the string table at `4400` and the symbol table
at `4500`. -/
def gnu_mem : Memory :=
  { dyn := fun a =>
      if a = 4608 then
        [{ d_tag := DT_GNU_HASH, d_ptr := 4352 }, { d_tag := DT_STRTAB, d_ptr := 4400 },
         { d_tag := DT_SYMTAB, d_ptr := 4500 }, { d_tag := DT_NULL, d_ptr := 0 }]
      else [],
    words := fun a => if a = 4352 then two_bucket_table else [],
    symtab := fun a => if a = 4500 then gnu_symtab else [],
    str := demo_str }

/-- Symbol table of the module with a legacy hash table: three entries. -/
def legacy_symtab : List Elf_Sym :=
  [{ st_name := 0, st_info := 0, st_shndx := 0, st_value := 0 },
   { st_name := 1, st_info := 18, st_shndx := 12, st_value := 100 },
   { st_name := 3, st_info := 18, st_shndx := 12, st_value := 200 }]

/-- Legacy hash table over `legacy_symtab`: `nbucket = 1`, `nchain = 3`, the
bucket, and the three chain words. -/
def legacy_table : List Nat := [1, 3, 1, 0, 2, 0]

/-- Memory of a module whose dynamic section names a legacy hash table (at
`4352`), the string table at `4400` and the symbol table at `4500`. -/
def legacy_mem : Memory :=
  { dyn := fun a =>
      if a = 4608 then
        [{ d_tag := DT_HASH, d_ptr := 4352 }, { d_tag := DT_STRTAB, d_ptr := 4400 },
         { d_tag := DT_SYMTAB, d_ptr := 4500 }, { d_tag := DT_NULL, d_ptr := 0 }]
      else [],
    words := fun a => if a = 4352 then legacy_table else [],
    symtab := fun a => if a = 4500 then legacy_symtab else [],
    str := demo_str }

/-- Memory of a module whose dynamic section names both a legacy hash table
(`legacy_table`, stored count `3`, at `4352`) and a modern one
(`two_bucket_table`, derived count `4`, at `4200`). -/
def both_mem : Memory :=
  { dyn := fun a =>
      if a = 4608 then
        [{ d_tag := DT_GNU_HASH, d_ptr := 4200 }, { d_tag := DT_HASH, d_ptr := 4352 },
         { d_tag := DT_STRTAB, d_ptr := 4400 }, { d_tag := DT_SYMTAB, d_ptr := 4500 },
         { d_tag := DT_NULL, d_ptr := 0 }]
      else [],
    words := fun a => if a = 4352 then legacy_table else if a = 4200 then two_bucket_table else [],
    symtab := fun a => if a = 4500 then gnu_symtab else [],
    str := demo_str }

/-- The count each hash-table entry of `both_mem` stands for. -/
def both_counts (e : Elf_Dyn) : Nat := if e.d_tag = DT_HASH then 3 else 4

/-- Follows the spec's words: the record extracted for the symbol-table index
`s`, when the address `module_base + entry.value` passes the segment validator;
no record otherwise. -/
def collected_record (mem : Memory) (info : dl_phdr_info) (st : scan_state) (s : Nat) :
    Option entry :=
  match (mem.symtab st.symtab)[s]? with
  | none => none
  | some sym =>
    if dynamic_pointer ((info.dlpi_addr + sym.st_value) % 2 ^ 64)
        info.dlpi_addr info.dlpi_phdr ≠ 0 then
      some (symbol_record mem info.dlpi_name st.strtab sym)
    else none

/-- Memory of a module whose dynamic section names a symbol table and a string
table and no hash table. -/
def bare_mem : Memory :=
  { dyn := fun a =>
      if a = 4608 then
        [{ d_tag := DT_STRTAB, d_ptr := 4400 }, { d_tag := DT_SYMTAB, d_ptr := 4500 },
         { d_tag := DT_NULL, d_ptr := 0 }]
      else [],
    words := fun _ => [],
    symtab := fun a => if a = 4500 then legacy_symtab else [],
    str := demo_str }

/-! ## Specification vocabulary for the composite key -/

/-- Two records have an identical key: name, binding, defined flag and type. -/
def same_key (a b : entry) : Prop :=
  strcmp a.name b.name = 0 ∧ a.bind = b.bind ∧ a.is_defined = b.is_defined ∧ a.type = b.type

/-- The bytes of a C string in front of its terminating NUL. -/
def cstr (l : List Nat) : List Nat := l.takeWhile (fun c => c != 0)

/-- Follows the spec's words: byte strings in ascending lexicographic order. -/
def bytes_compare : List Nat → List Nat → Ordering
  | [], [] => Ordering.eq
  | [], _ :: _ => Ordering.lt
  | _ :: _, [] => Ordering.gt
  | a :: as, b :: bs =>
    if a < b then Ordering.lt else if b < a then Ordering.gt else bytes_compare as bs

/-- Order of two numbers. -/
def nat_compare (a b : Nat) : Ordering :=
  if a < b then Ordering.lt else if b < a then Ordering.gt else Ordering.eq

/-- Follows the spec's words: lexicographic order on the key tuple (name,
binding, defined flag as a boolean, type). -/
def key_compare_flag (l r : entry) : Ordering :=
  (bytes_compare (cstr l.name) (cstr r.name)).then
    ((nat_compare l.bind r.bind).then
      ((nat_compare (if l.is_defined ≠ 0 then 1 else 0) (if r.is_defined ≠ 0 then 1 else 0)).then
        (nat_compare l.type r.type)))

/-- Lexicographic order on the key tuple (name, binding, stored value of the
defined flag, type). -/
def key_compare (l r : entry) : Ordering :=
  (bytes_compare (cstr l.name) (cstr r.name)).then
    ((nat_compare l.bind r.bind).then
      ((nat_compare l.is_defined r.is_defined).then (nat_compare l.type r.type)))

/-- The object `v` of `libA.so`, in section `1`. -/
def obj_in_section_1 : entry :=
  { src := "libA.so", name := [118], type := 2, bind := 1, is_defined := 1 }

/-- A symbol `v` of `libB.so` with a smaller type, in section `2`. -/
def obj_in_section_2 : entry :=
  { src := "libB.so", name := [118], type := 1, bind := 1, is_defined := 2 }

/-- The function symbol `b`, global and defined, as collected from `libC.so`. -/
def sym_b_C : entry := { src := "libC.so", name := [98], type := 2, bind := 1, is_defined := 1 }

/-- The symbols `a` (modules A, B) and `b` (modules A, B, C), collected with the
modules in the order A, B, C. -/
def collected_abc : List entry := [sym_a_A, sym_b_A, sym_a_B, sym_b_B, sym_b_C]

/-- The same records, collected with the modules in the order A, C, B. -/
def collected_acb : List entry := [sym_a_A, sym_b_A, sym_b_C, sym_a_B, sym_b_B]

/-! ## The comparator is a total preorder -/

theorem strcmp_swap (a b : List Nat) : strcmp b a = -strcmp a b := by
  induction a generalizing b with
  | nil => cases b <;> simp [strcmp]
  | cons x xs ih =>
    cases b with
    | nil => simp [strcmp]
    | cons y ys =>
      simp only [strcmp]
      by_cases hxy : x = y
      · subst hxy
        by_cases hx : x = 0
        · simp [hx]
        · simp [hx, ih ys]
      · have hyx : y ≠ x := fun h => hxy h.symm
        simp [hxy, hyx]

theorem strcmp_self (a : List Nat) : strcmp a a = 0 := by
  have h := strcmp_swap a a
  omega

theorem strcmp_congr_left (a b c : List Nat) (h : strcmp a b = 0) :
    strcmp a c = strcmp b c := by
  induction a generalizing b c with
  | nil =>
    cases b with
    | nil => rfl
    | cons y ys =>
      simp only [strcmp] at h
      have hy : y = 0 := by omega
      subst hy
      cases c with
      | nil => simp [strcmp]
      | cons z zs =>
        simp only [strcmp]
        by_cases hz : 0 = z
        · subst hz; simp
        · simp [hz]
  | cons x xs ih =>
    cases b with
    | nil =>
      simp only [strcmp] at h
      have hx : x = 0 := by omega
      subst hx
      cases c with
      | nil => simp [strcmp]
      | cons z zs =>
        simp only [strcmp]
        by_cases hz : 0 = z
        · subst hz; simp
        · simp [hz]
    | cons y ys =>
      simp only [strcmp] at h
      by_cases hxy : x = y
      · subst hxy
        by_cases hx : x = 0
        · subst hx
          cases c with
          | nil => simp [strcmp]
          | cons z zs => simp [strcmp]
        · simp [hx] at h
          cases c with
          | nil => simp [strcmp]
          | cons z zs =>
            simp only [strcmp]
            by_cases hz : x = z
            · simp [hz, ih ys zs h]
            · simp [hz]
      · simp [hxy] at h
        omega

theorem strcmp_lt_trans (a b c : List Nat) (h1 : strcmp a b < 0) (h2 : strcmp b c < 0) :
    strcmp a c < 0 := by
  induction a generalizing b c with
  | nil =>
    cases b with
    | nil => simp [strcmp] at h1
    | cons y ys =>
      cases c with
      | nil =>
        simp only [strcmp] at h1 h2
        omega
      | cons z zs =>
        simp only [strcmp] at h1 h2 ⊢
        split_ifs at h2 <;> omega
  | cons x xs ih =>
    cases b with
    | nil =>
      simp only [strcmp] at h1
      omega
    | cons y ys =>
      cases c with
      | nil =>
        simp only [strcmp] at h2
        omega
      | cons z zs =>
        simp only [strcmp] at h1 h2 ⊢
        by_cases hxy : x = y
        · subst hxy
          by_cases hx : x = 0
          · simp [hx] at h1
          · simp [hx] at h1
            by_cases hxz : x = z
            · subst hxz
              simp [hx] at h2 ⊢
              exact ih ys zs h1 h2
            · simp [hxz] at h2 ⊢
              exact h2
        · simp [hxy] at h1
          by_cases hyz : y = z
          · subst hyz
            simp [hxy]
            omega
          · simp [hyz] at h2
            have hxz : x ≠ z := by omega
            simp [hxz]
            omega

theorem strcmp_congr_right (a b c : List Nat) (h : strcmp b c = 0) :
    strcmp a b = strcmp a c := by
  have h1 := strcmp_swap b c
  have h2 := strcmp_congr_left c b a (by omega)
  have h3 := strcmp_swap a b
  have h4 := strcmp_swap a c
  omega

theorem cmp_entry_swap (x y : entry) : cmp_entry y x = -cmp_entry x y := by
  have h := strcmp_swap x.name y.name
  simp only [cmp_entry]
  split_ifs <;> omega

theorem cmp_entry_self (x : entry) : cmp_entry x x = 0 := by
  have h := cmp_entry_swap x x
  omega

theorem cmp_entry_le_trans (x y z : entry) (h1 : cmp_entry x y ≤ 0) (h2 : cmp_entry y z ≤ 0) :
    cmp_entry x z ≤ 0 := by
  have f1 : strcmp x.name y.name < 0 → strcmp y.name z.name < 0 → strcmp x.name z.name < 0 :=
    strcmp_lt_trans _ _ _
  have f2 : strcmp x.name y.name = 0 → strcmp x.name z.name = strcmp y.name z.name :=
    strcmp_congr_left _ _ _
  have f3 : strcmp y.name z.name = 0 → strcmp x.name y.name = strcmp x.name z.name :=
    strcmp_congr_right _ _ _
  simp only [cmp_entry] at h1 h2 ⊢
  split_ifs at h1 h2 ⊢ <;> omega

theorem cmp_entry_lt_of_lt_of_le (x y z : entry) (h1 : cmp_entry x y < 0)
    (h2 : cmp_entry y z ≤ 0) : cmp_entry x z < 0 := by
  have f1 : strcmp x.name y.name < 0 → strcmp y.name z.name < 0 → strcmp x.name z.name < 0 :=
    strcmp_lt_trans _ _ _
  have f2 : strcmp x.name y.name = 0 → strcmp x.name z.name = strcmp y.name z.name :=
    strcmp_congr_left _ _ _
  have f3 : strcmp y.name z.name = 0 → strcmp x.name y.name = strcmp x.name z.name :=
    strcmp_congr_right _ _ _
  simp only [cmp_entry] at h1 h2 ⊢
  split_ifs at h1 h2 ⊢ <;> omega

/-! ## Arrays: reading, swapping -/

theorem swap_entry_length (arr : List entry) (a b : Int) :
    (swap_entry arr a b).length = arr.length := by
  simp [swap_entry]

theorem rd_swap_entry (arr : List entry) (a b k : Int) (ha : 0 ≤ a) (hb : 0 ≤ b) (hk : 0 ≤ k)
    (hal : a < arr.length) (hbl : b < arr.length) :
    rd (swap_entry arr a b) k =
      if k = b then rd arr a else if k = a then rd arr b else rd arr k := by
  have hat : a.toNat < arr.length := by omega
  have hbt : b.toNat < arr.length := by omega
  simp only [rd, swap_entry, List.getD_eq_getElem?_getD, List.getElem?_set, List.length_set]
  by_cases hkb : k = b
  · subst hkb
    simp [hbt]
  · have hkb2 : ¬ b.toNat = k.toNat := by omega
    simp only [hkb, hkb2, if_false]
    by_cases hka : k = a
    · subst hka
      simp [hat]
    · have hka2 : ¬ a.toNat = k.toNat := by omega
      simp [hka, hka2]

theorem count_swap_entry (arr : List entry) (a b : Int) (ha : 0 ≤ a) (hb : 0 ≤ b)
    (hal : a < arr.length) (hbl : b < arr.length) (e : entry) :
    (swap_entry arr a b).count e = arr.count e := by
  have hat : a.toNat < arr.length := by omega
  have hbt : b.toNat < arr.length := by omega
  have hra : rd arr a = arr[a.toNat] := by
    simp [rd, List.getD_eq_getElem?_getD, hat]
  have hrb : rd arr b = arr[b.toNat] := by
    simp [rd, List.getD_eq_getElem?_getD, hbt]
  have hma : arr[a.toNat] ∈ arr := List.getElem_mem _
  have hmb : arr[b.toNat] ∈ arr := List.getElem_mem _
  by_cases hab : a.toNat = b.toNat
  · simp only [swap_entry, hra, hrb, hab]
    rw [List.set_set]
    rw [List.count_set _ _ _ _ hbt]
    by_cases he : arr[b.toNat] = e
    · have hpos : 0 < arr.count e := List.count_pos_iff.mpr (he ▸ hmb)
      simp [he]
      omega
    · simp [he]
  · simp only [swap_entry, hra, hrb]
    rw [List.count_set _ _ _ _ (by simpa using hbt), List.count_set _ _ _ _ hat]
    rw [List.getElem_set_ne hab]
    by_cases hea : arr[a.toNat] = e <;> by_cases heb : arr[b.toNat] = e
    · have hpos : 0 < arr.count e := List.count_pos_iff.mpr (hea ▸ hma)
      simp [hea, heb]
      omega
    · have hpos : 0 < arr.count e := List.count_pos_iff.mpr (hea ▸ hma)
      simp [hea, heb]
      omega
    · have hpos : 0 < arr.count e := List.count_pos_iff.mpr (heb ▸ hmb)
      simp [hea, heb]
    · simp [hea, heb]

theorem swap_entry_perm (arr : List entry) (a b : Int) (ha : 0 ≤ a) (hb : 0 ≤ b)
    (hal : a < arr.length) (hbl : b < arr.length) :
    (swap_entry arr a b).Perm arr :=
  List.perm_iff_count.mpr (count_swap_entry arr a b ha hb hal hbl)

/-! ## Frames -/

theorem Frame.refl (lo hi1 : Nat) (a : List entry) : Frame lo hi1 a a :=
  ⟨rfl, List.Perm.refl _, fun _ _ => rfl, fun _ h => h⟩

theorem Frame.trans {lo hi1 : Nat} {a b c : List entry} (h1 : Frame lo hi1 a b)
    (h2 : Frame lo hi1 b c) : Frame lo hi1 a c := by
  obtain ⟨l1, p1, o1, q1⟩ := h1
  obtain ⟨l2, p2, o2, q2⟩ := h2
  refine ⟨l2.trans l1, p2.trans p1, ?_, ?_⟩
  · intro k hk
    rw [o2 k hk, o1 k hk]
  · intro P hP
    exact q2 P (q1 P hP)

theorem Frame.mono {lo hi1 lo2 hi2 : Nat} {a b : List entry} (h : Frame lo2 hi2 a b)
    (hlo : lo ≤ lo2) (hhi : hi2 ≤ hi1) : Frame lo hi1 a b := by
  obtain ⟨l1, p1, o1, q1⟩ := h
  refine ⟨l1, p1, ?_, ?_⟩
  · intro k hk
    exact o1 k (by omega)
  · intro P hP k hk1 hk2
    by_cases hin : lo2 ≤ k ∧ k < hi2
    · exact q1 P (fun k2 h1 h2 => hP k2 (by omega) (by omega)) k hin.1 hin.2
    · rw [o1 k (by omega)]
      exact hP k hk1 hk2

theorem frame_swap_entry (arr : List entry) (lo hi1 a b : Nat) (hla : lo ≤ a) (hlb : lo ≤ b)
    (ha : a < hi1) (hb : b < hi1) (hlen : hi1 ≤ arr.length) :
    Frame lo hi1 arr (swap_entry arr a b) := by
  have hrd : ∀ k : Nat, rd (swap_entry arr a b) k =
      if (k : Int) = b then rd arr a else if (k : Int) = a then rd arr b else rd arr k :=
    fun k => rd_swap_entry arr a b k (by omega) (by omega) (by omega) (by omega) (by omega)
  refine ⟨swap_entry_length _ _ _,
    swap_entry_perm arr a b (by omega) (by omega) (by omega) (by omega), ?_, ?_⟩
  · intro k hk
    rw [hrd k]
    have h1 : ¬ (k : Int) = b := by omega
    have h2 : ¬ (k : Int) = a := by omega
    simp [h1, h2]
  · intro P hP k hk1 hk2
    rw [hrd k]
    split_ifs
    · exact hP a hla ha
    · exact hP b hlb hb
    · exact hP k hk1 hk2

/-! ## Partition -/

theorem partition_loop_spec (lo hi : Nat) :
    ∀ (n : Nat) (arr : List entry) (p q : Nat), lo ≤ p → p ≤ q → q + n = hi →
      hi < arr.length →
      (∀ k : Nat, lo ≤ k → k < p → cmp_entry (rd arr k) (rd arr hi) < 0) →
      (∀ k : Nat, p ≤ k → k < q → ¬ cmp_entry (rd arr k) (rd arr hi) < 0) →
      ∃ p2 : Nat, (partition_loop hi n arr ((p : Int) - 1) q).2 = (p2 : Int) - 1 ∧
        lo ≤ p2 ∧ p2 ≤ hi ∧
        Frame lo hi arr (partition_loop hi n arr ((p : Int) - 1) q).1 ∧
        (∀ k : Nat, lo ≤ k → k < p2 →
          cmp_entry (rd (partition_loop hi n arr ((p : Int) - 1) q).1 k)
            (rd (partition_loop hi n arr ((p : Int) - 1) q).1 hi) < 0) ∧
        (∀ k : Nat, p2 ≤ k → k < hi →
          ¬ cmp_entry (rd (partition_loop hi n arr ((p : Int) - 1) q).1 k)
            (rd (partition_loop hi n arr ((p : Int) - 1) q).1 hi) < 0) := by
  intro n
  induction n with
  | zero =>
    intro arr p q hlp hpq hq hlen hA hB
    have hqe : q = hi := by omega
    subst hqe
    exact ⟨p, rfl, hlp, hpq, Frame.refl _ _ _, hA, hB⟩
  | succ n ih =>
    intro arr p q hlp hpq hq hlen hA hB
    have hqhi : q < hi := by omega
    simp only [partition_loop]
    by_cases hc : cmp_entry (rd arr q) (rd arr hi) < 0
    · simp only [hc, if_true]
      have e1 : (p : Int) - 1 + 1 = (p : Int) := by omega
      rw [e1]
      have hfr : Frame lo hi arr (swap_entry arr p q) :=
        frame_swap_entry arr lo hi p q hlp (by omega) (by omega) hqhi (by omega)
      have hrd : ∀ k : Nat, rd (swap_entry arr p q) k =
          if (k : Int) = q then rd arr p else if (k : Int) = p then rd arr q else rd arr k :=
        fun k => rd_swap_entry arr p q k (by omega) (by omega) (by omega) (by omega) (by omega)
      have hpiv : rd (swap_entry arr p q) hi = rd arr hi := hfr.2.2.1 hi (Or.inr (le_refl _))
      have hA2 : ∀ k : Nat, lo ≤ k → k < p + 1 →
          cmp_entry (rd (swap_entry arr p q) k) (rd (swap_entry arr p q) hi) < 0 := by
        intro k hk1 hk2
        rw [hpiv, hrd k]
        by_cases hkq : (k : Int) = q
        · have hkp : k = p := by omega
          subst hkp
          have hpq2 : k = q := by omega
          subst hpq2
          simpa using hc
        · by_cases hkp : (k : Int) = p
          · rw [if_neg hkq, if_pos hkp]
            exact hc
          · simp only [hkq, hkp, if_false]
            exact hA k hk1 (by omega)
      have hB2 : ∀ k : Nat, p + 1 ≤ k → k < q + 1 →
          ¬ cmp_entry (rd (swap_entry arr p q) k) (rd (swap_entry arr p q) hi) < 0 := by
        intro k hk1 hk2
        rw [hpiv, hrd k]
        by_cases hkq : (k : Int) = q
        · simp only [hkq, if_true]
          exact hB p (le_refl _) (by omega)
        · have hkp : ¬ (k : Int) = p := by omega
          simp only [hkq, hkp, if_false]
          exact hB k (by omega) (by omega)
      have h := ih (swap_entry arr p q) (p + 1) (q + 1) (by omega) (by omega) (by omega)
        (by rw [swap_entry_length]; exact hlen) hA2 hB2
      simp only [Nat.cast_add, Nat.cast_one] at h
      have e2 : (p : Int) + 1 - 1 = (p : Int) := by omega
      rw [e2] at h
      obtain ⟨p2, h1, h2, h3, h4, h5, h6⟩ := h
      exact ⟨p2, h1, by omega, h3, Frame.trans hfr h4, h5, fun k hk1 hk2 => h6 k hk1 hk2⟩
    · simp only [hc, if_false]
      have hB2 : ∀ k : Nat, p ≤ k → k < q + 1 →
          ¬ cmp_entry (rd arr k) (rd arr hi) < 0 := by
        intro k hk1 hk2
        by_cases hkq : k = q
        · subst hkq
          exact hc
        · exact hB k hk1 (by omega)
      have h := ih arr p (q + 1) hlp (by omega) (by omega) hlen hA hB2
      simp only [Nat.cast_add, Nat.cast_one] at h
      exact h

theorem entry_partition_spec (arr : List entry) (lo hi : Nat) (hlh : lo ≤ hi)
    (hlen : hi < arr.length) :
    ∃ pi : Nat, (entry_partition arr lo hi).2 = (pi : Int) ∧ lo ≤ pi ∧ pi ≤ hi ∧
      Frame lo (hi + 1) arr (entry_partition arr lo hi).1 ∧
      (∀ k : Nat, lo ≤ k → k < pi →
        cmp_entry (rd (entry_partition arr lo hi).1 k) (rd (entry_partition arr lo hi).1 pi) < 0) ∧
      (∀ k : Nat, pi < k → k ≤ hi →
        ¬ cmp_entry (rd (entry_partition arr lo hi).1 k)
          (rd (entry_partition arr lo hi).1 pi) < 0) := by
  have hn : ((hi : Int) - (lo : Int)).toNat = hi - lo := by omega
  obtain ⟨p2, h1, h2, h3, h4, h5, h6⟩ :=
    partition_loop_spec lo hi (hi - lo) arr lo lo (le_refl _) (le_refl _) (by omega) hlen
      (fun k hk1 hk2 => by omega) (fun k hk1 hk2 => by omega)
  simp only [entry_partition, hn]
  generalize partition_loop hi (hi - lo) arr ((lo : Int) - 1) lo = r at h1 h4 h5 h6
  obtain ⟨out, i⟩ := r
  simp only at h1 h4 h5 h6
  subst h1
  have e1 : (p2 : Int) - 1 + 1 = (p2 : Int) := by omega
  simp only [e1]
  have hlen2 : out.length = arr.length := h4.1
  have hrd : ∀ k : Nat, rd (swap_entry out p2 hi) k =
      if (k : Int) = hi then rd out p2 else if (k : Int) = p2 then rd out hi else rd out k :=
    fun k => rd_swap_entry out p2 hi k (by omega) (by omega) (by omega) (by omega) (by omega)
  have hfr : Frame lo (hi + 1) out (swap_entry out p2 hi) :=
    frame_swap_entry out lo (hi + 1) p2 hi h2 hlh (by omega) (by omega) (by omega)
  refine ⟨p2, rfl, h2, h3, Frame.trans (Frame.mono h4 (le_refl _) (by omega)) hfr, ?_, ?_⟩
  · intro k hk1 hk2
    have hpiv : rd (swap_entry out p2 hi) p2 = rd out hi := by
      rw [hrd p2]
      by_cases hp : (p2 : Int) = hi
      · have hp2 : p2 = hi := by omega
        subst hp2
        simp
      · simp [hp]
    rw [hpiv, hrd k]
    have hk3 : ¬ (k : Int) = hi := by omega
    have hk4 : ¬ (k : Int) = p2 := by omega
    simp only [hk3, hk4, if_false]
    exact h5 k hk1 hk2
  · intro k hk1 hk2
    have hp : ¬ (p2 : Int) = hi := by omega
    have hpiv : rd (swap_entry out p2 hi) p2 = rd out hi := by
      rw [hrd p2]
      simp [hp]
    rw [hpiv, hrd k]
    by_cases hk3 : (k : Int) = hi
    · simp only [hk3, if_true]
      exact h6 p2 (le_refl _) (by omega)
    · have hk4 : ¬ (k : Int) = p2 := by omega
      simp only [hk3, hk4, if_false]
      exact h6 k (by omega) (by omega)

/-! ## Quicksort -/

theorem entry_quicksort_spec :
    ∀ (fuel : Nat) (arr : List entry) (lo hi1 : Nat), hi1 ≤ arr.length → hi1 - lo < fuel →
      ∃ out, entry_quicksort fuel arr lo ((hi1 : Int) - 1) = some out ∧
        Frame lo hi1 arr out ∧ SortedRange lo hi1 out ∧ (hi1 - lo ≤ 1 → out = arr) := by
  intro fuel
  induction fuel with
  | zero =>
    intro arr lo hi1 _ hf
    omega
  | succ fuel ih =>
    intro arr lo hi1 hlen hf
    simp only [entry_quicksort]
    by_cases hge : (lo : Int) ≥ (hi1 : Int) - 1
    · simp only [hge, if_true]
      refine ⟨arr, rfl, Frame.refl _ _ _, ?_, fun _ => rfl⟩
      intro i j h1 h2 h3
      omega
    · simp only [hge, if_false]
      have e : (hi1 : Int) - 1 = ((hi1 - 1 : Nat) : Int) := by omega
      rw [e]
      obtain ⟨pi, h1, h2, h3, h4, h5, h6⟩ :=
        entry_partition_spec arr lo (hi1 - 1) (by omega) (by omega)
      have ehi : hi1 - 1 + 1 = hi1 := by omega
      rw [ehi] at h4
      generalize entry_partition arr (lo : Int) ((hi1 - 1 : Nat) : Int) = r at h1 h4 h5 h6
      obtain ⟨a1, pi2⟩ := r
      simp only at h1 h4 h5 h6
      subst h1
      have hl1 : a1.length = arr.length := h4.1
      obtain ⟨a2, hq2, hf2, hs2, _⟩ := ih a1 lo pi (by omega) (by omega)
      simp only [hq2]
      have hl2 : a2.length = a1.length := hf2.1
      obtain ⟨a3, hq3, hf3, hs3, _⟩ := ih a2 (pi + 1) hi1 (by omega) (by omega)
      rw [e] at hq3
      simp only [Nat.cast_add, Nat.cast_one] at hq3
      refine ⟨a3, hq3, ?_, ?_, fun h => by omega⟩
      · exact Frame.trans h4 (Frame.trans (Frame.mono hf2 (le_refl _) (by omega))
          (Frame.mono hf3 (by omega) (le_refl _)))
      · have hpiv2 : rd a2 pi = rd a1 pi := hf2.2.2.1 pi (Or.inr (le_refl _))
        have hpiv3 : rd a3 pi = rd a1 pi := by
          rw [hf3.2.2.1 pi (Or.inl (by omega)), hpiv2]
        have hL2 : ∀ k : Nat, lo ≤ k → k < pi → cmp_entry (rd a2 k) (rd a1 pi) < 0 :=
          hf2.2.2.2 (fun x => cmp_entry x (rd a1 pi) < 0) h5
        have hL3 : ∀ k : Nat, lo ≤ k → k < pi → cmp_entry (rd a3 k) (rd a1 pi) < 0 := by
          intro k hk1 hk2
          rw [hf3.2.2.1 k (Or.inl (by omega))]
          exact hL2 k hk1 hk2
        have hR2 : ∀ k : Nat, pi + 1 ≤ k → k < hi1 → ¬ cmp_entry (rd a2 k) (rd a1 pi) < 0 := by
          intro k hk1 hk2
          rw [hf2.2.2.1 k (Or.inr (by omega))]
          exact h6 k (by omega) (by omega)
        have hR3 : ∀ k : Nat, pi + 1 ≤ k → k < hi1 → ¬ cmp_entry (rd a3 k) (rd a1 pi) < 0 :=
          hf3.2.2.2 (fun x => ¬ cmp_entry x (rd a1 pi) < 0) hR2
        intro i j hi hij hj
        by_cases hjp : j < pi
        · rw [hf3.2.2.1 i (Or.inl (by omega)), hf3.2.2.1 j (Or.inl (by omega))]
          exact hs2 i j hi hij hjp
        · by_cases hip : pi < i
          · exact hs3 i j (by omega) hij hj
          · by_cases hje : j = pi
            · subst hje
              rw [hpiv3]
              exact le_of_lt (hL3 i hi hij)
            · have hjr := hR3 j (by omega) hj
              have hsw := cmp_entry_swap (rd a3 j) (rd a1 pi)
              have hpj : cmp_entry (rd a1 pi) (rd a3 j) ≤ 0 := by omega
              by_cases hie : i = pi
              · subst hie
                rw [hpiv3]
                exact hpj
              · exact cmp_entry_le_trans _ _ _ (le_of_lt (hL3 i hi (by omega))) hpj

/-! ## The conflict scan -/

theorem confAt_iff (v : List entry) (k : Nat) :
    ((k : Int) < (v.length : Int) - 1 ∧
      conflict_condition (rd v (k : Int)) (rd v ((k : Int) + 1)) = true) ↔ ConfAt v k := by
  unfold ConfAt
  constructor
  · rintro ⟨h1, h2⟩
    exact ⟨by omega, h2⟩
  · rintro ⟨h1, h2⟩
    exact ⟨by omega, h2⟩

theorem count_loop_spec (v : List entry) :
    ∀ (fuel k : Nat) (count : Int), v.length - k < fuel →
      ∃ m : Nat, count_loop v fuel k count = some (count + m) ∧
        (∀ t : Nat, t < m → ConfAt v (k + t)) ∧ ¬ ConfAt v (k + m) := by
  intro fuel
  induction fuel with
  | zero =>
    intro k count hf
    omega
  | succ fuel ih =>
    intro k count hf
    simp only [count_loop]
    by_cases hc : ConfAt v k
    · rw [if_pos ((confAt_iff v k).mpr hc)]
      obtain ⟨m, h1, h2, h3⟩ := ih (k + 1) (count + 1) (by have := hc.1; omega)
      simp only [Nat.cast_add, Nat.cast_one] at h1
      refine ⟨m + 1, ?_, ?_, ?_⟩
      · rw [h1]
        simp only [Nat.cast_add, Nat.cast_one]
        congr 1
        ring
      · intro t ht
        cases t with
        | zero => exact hc
        | succ t =>
          have h := h2 t (by omega)
          have e : k + 1 + t = k + (t + 1) := by omega
          rw [e] at h
          exact h
      · have e : k + 1 + m = k + (m + 1) := by omega
        rw [e] at h3
        exact h3
    · rw [if_neg (fun h => hc ((confAt_iff v k).mp h))]
      exact ⟨0, by simp, fun t ht => by omega, hc⟩

theorem group_at_eq (v : List entry) (a c : Nat) (h : a + c ≤ v.length) :
    group_at v a c = (v.drop a).take c := by
  unfold group_at
  apply List.ext_getElem
  · simp
    omega
  · intro i h1 h2
    simp only [List.length_map, List.length_range] at h1
    have h3 : a + i < v.length := by
      simp at h1
      omega
    simp [rd, List.getD_eq_getElem?_getD]
    have e : ((a : Int) + (i : Int)).toNat = a + i := by omega
    rw [e]
    simp [h3]

theorem stats_loop_spec (v : List entry) :
    ∀ (fuel i : Nat), v.length - i < fuel →
      ∃ gs, stats_loop v fuel i = some gs ∧
        ∀ g ∈ gs, ∃ a c : Nat, i ≤ a ∧ 2 ≤ c ∧ a + c ≤ v.length ∧
          g = (v.drop a).take c ∧ ∀ t : Nat, t + 1 < c → ConfAt v (a + t) := by
  intro fuel
  induction fuel with
  | zero =>
    intro i hf
    omega
  | succ fuel ih =>
    intro i hf
    simp only [stats_loop]
    by_cases hlt : (i : Int) < (v.length : Int) - 1
    · rw [if_pos hlt]
      by_cases hc : conflict_condition (rd v (i : Int)) (rd v ((i : Int) + 1)) = true
      · rw [if_pos hc]
        have hconf : ConfAt v i := ⟨by omega, hc⟩
        obtain ⟨m, h1, h2, h3⟩ := count_loop_spec v (v.length + 1) i 1 (by omega)
        rw [h1]
        have hm : 1 ≤ m := by
          rcases Nat.eq_zero_or_pos m with h0 | h0
          · subst h0
            exact absurd hconf h3
          · exact h0
        have hlast := (h2 (m - 1) (by omega)).1
        obtain ⟨rest, hr1, hr2⟩ := ih (i + m + 2) (by omega)
        have e1 : (i : Int) + (1 + (m : Int)) + 1 = ((i + m + 2 : Nat) : Int) := by
          push_cast
          ring
        have e2 : (1 : Int) + (m : Int) = ((1 + m : Nat) : Int) := by
          push_cast
          ring
        simp only [e1, hr1]
        refine ⟨_, rfl, ?_⟩
        intro g hg
        rcases List.mem_cons.mp hg with hg1 | hg1
        · refine ⟨i, 1 + m, le_refl _, by omega, by omega, ?_, fun t ht => h2 t (by omega)⟩
          rw [hg1, e2]
          exact group_at_eq v i (1 + m) (by omega)
        · obtain ⟨a, c, ha, hc2, hac, hg2, hall⟩ := hr2 g hg1
          exact ⟨a, c, by omega, hc2, hac, hg2, hall⟩
      · rw [if_neg hc]
        obtain ⟨rest, hr1, hr2⟩ := ih (i + 1) (by omega)
        simp only [Nat.cast_add, Nat.cast_one] at hr1
        refine ⟨rest, hr1, ?_⟩
        intro g hg
        obtain ⟨a, c, ha, hc2, hac, hg2, hall⟩ := hr2 g hg
        exact ⟨a, c, by omega, hc2, hac, hg2, hall⟩
    · rw [if_neg hlt]
      exact ⟨[], rfl, fun g hg => absurd hg (List.not_mem_nil g)⟩

/-! ## Sorting the whole vector -/

theorem entry_quicksort_fuel_mono :
    ∀ (fuel : Nat) (arr : List entry) (low high : Int) (out : List entry),
      entry_quicksort fuel arr low high = some out →
      entry_quicksort (fuel + 1) arr low high = some out := by
  intro fuel
  induction fuel with
  | zero =>
    intro arr low high out h
    simp [entry_quicksort] at h
  | succ fuel ih =>
    intro arr low high out h
    rw [entry_quicksort] at h ⊢
    by_cases hge : low ≥ high
    · simp only [hge, if_true] at h ⊢
      exact h
    · simp only [hge, if_false] at h ⊢
      cases h1 : entry_quicksort fuel (entry_partition arr low high).1 low
          ((entry_partition arr low high).2 - 1) with
      | none => simp [h1] at h
      | some a1 =>
        simp only [h1] at h
        simp only [ih _ _ _ _ h1]
        exact ih _ _ _ _ h

theorem entry_quicksort_fuel_le (f1 f2 : Nat) (hle : f1 ≤ f2) (arr : List entry)
    (low high : Int) (out : List entry) (h : entry_quicksort f1 arr low high = some out) :
    entry_quicksort f2 arr low high = some out := by
  induction hle with
  | refl => exact h
  | step _ ih => exact entry_quicksort_fuel_mono _ _ _ _ _ ih

theorem sort_vec_spec (v : List entry) :
    ∃ s, sort_vec v = some s ∧ Frame 0 v.length v s ∧ SortedRange 0 v.length s ∧
      (v.length ≤ 1 → s = v) := by
  obtain ⟨s, h1, h2, h3, h4⟩ :=
    entry_quicksort_spec (v.length + 1) v 0 v.length (le_refl _) (by omega)
  exact ⟨s, h1, h2, h3, fun h => h4 (by omega)⟩

/-! ## Facts about reported groups -/

theorem conf_pair (s : List entry) (k : Nat) (hs : SortedRange 0 s.length s)
    (hc : ConfAt s k) :
    strcmp (rd s (k : Int)).name (rd s ((k : Int) + 1)).name = 0 ∧
      (rd s (k : Int)).bind = STB_GLOBAL ∧ (rd s ((k : Int) + 1)).bind = STB_GLOBAL ∧
      (rd s (k : Int)).is_defined ≠ 0 ∧ (rd s ((k : Int) + 1)).is_defined ≠ 0 := by
  obtain ⟨hk, hcc⟩ := hc
  have hsort := hs k (k + 1) (Nat.zero_le _) (by omega) hk
  simp only [Nat.cast_add, Nat.cast_one] at hsort
  simp only [conflict_condition, Bool.and_eq_true, beq_iff_eq, bne_iff_ne] at hcc
  obtain ⟨⟨⟨hn, hb⟩, hg⟩, hd⟩ := hcc
  refine ⟨hn, hg, by rw [← hb]; exact hg, hd, ?_⟩
  simp only [cmp_entry, hn, hb] at hsort
  intro h0
  have hd2 : 0 < (rd s (k : Int)).is_defined := Nat.pos_of_ne_zero hd
  split_ifs at hsort <;> omega

theorem mem_take_drop (v : List entry) (a c : Nat) (h : a + c ≤ v.length) (x : entry) :
    x ∈ (v.drop a).take c ↔ ∃ t : Nat, t < c ∧ x = rd v ((a + t : Nat) : Int) := by
  rw [← group_at_eq v a c h]
  simp only [group_at, List.mem_map, List.mem_range, Int.toNat_ofNat]
  constructor
  · rintro ⟨t, ht, rfl⟩
    exact ⟨t, ht, by simp⟩
  · rintro ⟨t, ht, rfl⟩
    exact ⟨t, ht, by simp⟩

theorem group_members (s : List entry) (a c : Nat) (hs : SortedRange 0 s.length s)
    (hc : 2 ≤ c) (hall : ∀ t : Nat, t + 1 < c → ConfAt s (a + t)) :
    ∀ t : Nat, t < c → qualifies (rd s (a : Int)).name (rd s ((a + t : Nat) : Int)) = true := by
  intro t
  induction t with
  | zero =>
    intro _
    obtain ⟨_, h2, _, h4, _⟩ := conf_pair s a hs (hall 0 (by omega))
    simp only [qualifies, Bool.and_eq_true, beq_iff_eq, bne_iff_ne, Nat.add_zero]
    exact ⟨⟨strcmp_self _, h2⟩, h4⟩
  | succ t ih =>
    intro ht
    have hprev := ih (by omega)
    obtain ⟨h1, _, h3, _, h5⟩ := conf_pair s (a + t) hs (hall t (by omega))
    simp only [qualifies, Bool.and_eq_true, beq_iff_eq, bne_iff_ne] at hprev ⊢
    have e : ((a + (t + 1) : Nat) : Int) = ((a + t : Nat) : Int) + 1 := by
      push_cast
      ring
    rw [e]
    refine ⟨⟨?_, h3⟩, h5⟩
    have hsw := strcmp_swap (rd s ((a + t : Nat) : Int)).name (rd s (((a + t : Nat) : Int) + 1)).name
    rw [strcmp_congr_left _ (rd s ((a + t : Nat) : Int)).name _ (by omega)]
    exact hprev.1.1

theorem group_facts (s : List entry) (a c : Nat) (hs : SortedRange 0 s.length s)
    (hc : 2 ≤ c) (hac : a + c ≤ s.length) (hall : ∀ t : Nat, t + 1 < c → ConfAt s (a + t)) :
    ((s.drop a).take c).length = c ∧
      (∀ x ∈ (s.drop a).take c, qualifies (rd s (a : Int)).name x = true) ∧
      (∀ x ∈ (s.drop a).take c, ∀ y ∈ (s.drop a).take c, strcmp x.name y.name = 0) ∧
      (s.drop a).take c <:+: s := by
  have hq : ∀ x ∈ (s.drop a).take c, qualifies (rd s (a : Int)).name x = true := by
    intro x hx
    obtain ⟨t, ht, rfl⟩ := (mem_take_drop s a c hac x).mp hx
    exact group_members s a c hs hc hall t ht
  refine ⟨?_, hq, ?_, ?_⟩
  · simp
    omega
  · intro x hx y hy
    have h1 := hq x hx
    have h2 := hq y hy
    simp only [qualifies, Bool.and_eq_true, beq_iff_eq, bne_iff_ne] at h1 h2
    rw [strcmp_congr_right _ _ _ h2.1.1]
    exact h1.1.1
  · exact (List.take_prefix _ _).isInfix.trans (List.drop_suffix _ _).isInfix

theorem qualifies_congr (n1 n2 : List Nat) (e : entry) (h : strcmp n1 n2 = 0) :
    qualifies n1 e = qualifies n2 e := by
  simp only [qualifies]
  rw [strcmp_congr_right e.name n1 n2 h]

theorem stats_loop_done (v : List entry) (fuel : Nat) (i : Int) (hf : 0 < fuel)
    (hi : ¬ i < (v.length : Int) - 1) : stats_loop v fuel i = some [] := by
  obtain ⟨f, rfl⟩ : ∃ f, fuel = f + 1 := ⟨fuel - 1, by omega⟩
  simp only [stats_loop, if_neg hi]

theorem rd_mem (v : List entry) (k : Nat) (hk : k < v.length) : rd v (k : Int) ∈ v := by
  simp only [rd, Int.toNat_ofNat, List.getD_eq_getElem?_getD, List.getElem?_eq_getElem hk,
    Option.getD_some]
  exact List.getElem_mem _

theorem all_conf (s : List entry) (nm : List Nat)
    (hall : ∀ e ∈ s, strcmp e.name nm = 0 ∧ e.bind = STB_GLOBAL ∧ e.is_defined ≠ 0)
    (t : Nat) (ht : t + 1 < s.length) : ConfAt s t := by
  refine ⟨ht, ?_⟩
  have h1 := hall _ (rd_mem s t (by omega))
  have h2 := hall _ (rd_mem s (t + 1) ht)
  simp only [Nat.cast_add, Nat.cast_one] at h2
  simp only [conflict_condition, Bool.and_eq_true, beq_iff_eq, bne_iff_ne]
  refine ⟨⟨⟨?_, by rw [h1.2.1, h2.2.1]⟩, h1.2.1⟩, h1.2.2⟩
  rw [strcmp_congr_right _ _ _ h2.1]
  exact h1.1

theorem stats_all_conf (s : List entry) (hk : 2 ≤ s.length)
    (hconf : ∀ t : Nat, t + 1 < s.length → ConfAt s t) :
    entry_vec_stats s = some [s] := by
  have h0 := hconf 0 (by omega)
  obtain ⟨m, h1, h2, h3⟩ := count_loop_spec s (s.length + 1) 0 1 (by omega)
  simp only [Nat.cast_zero, Nat.zero_add] at h1 h2 h3
  have hm : m + 1 = s.length := by
    by_contra hne
    rcases Nat.lt_or_gt_of_ne hne with hlt | hgt
    · exact h3 (hconf m hlt)
    · have := (h2 (s.length - 1) (by omega)).1
      omega
  have e : (1 : Int) + (m : Int) = ((s.length : Nat) : Int) := by omega
  have hc0 : conflict_condition (rd s 0) (rd s (0 + 1)) = true := by
    have := h0.2
    simpa using this
  simp only [entry_vec_stats, stats_loop]
  rw [if_pos (by omega), if_pos hc0, h1]
  simp only [e]
  rw [stats_loop_done s s.length _ (by omega) (by omega)]
  have hg := group_at_eq s 0 s.length (by omega)
  simp only [Nat.cast_zero, List.drop_zero, List.take_length] at hg
  rw [hg]

/-! ## Claims about the sort and the conflict scan -/

/-- C1, evaluated on the code: on a collection in which two modules both define
the global symbols `a` and `b`, the sorted vector holds the run `a, a` directly
followed by the run `b, b`; the specification asks for both runs, and
`entry_vec_stats` reports the first only, because its cursor moves past the
first entry of the run that follows a reported group. -/
theorem entry_vec_stats_skips_adjacent_run :
    sort_vec two_modules_two_symbols = some [sym_a_B, sym_a_A, sym_b_B, sym_b_A] ∧
      conflict_runs [sym_a_B, sym_a_A, sym_b_B, sym_b_A]
        = [[sym_a_B, sym_a_A], [sym_b_B, sym_b_A]] ∧
      entry_vec_stats [sym_a_B, sym_a_A, sym_b_B, sym_b_A] = some [[sym_a_B, sym_a_A]] ∧
      detect two_modules_two_symbols = some [[sym_a_B, sym_a_A]] := by
  decide

/-- C2: on the sorted collection the scan returns, and every group it reports
has at least two members, is a contiguous part of the sorted vector, has members
of one name that are all (the last one included) globally bound and defined;
hence every reported name has at least two global, defined records in the
collection. -/
theorem reported_groups_sound (v : List entry) :
    ∃ s gs, sort_vec v = some s ∧ entry_vec_stats s = some gs ∧ detect v = some gs ∧
      ∀ g ∈ gs, 2 ≤ g.length ∧ g <:+: s ∧
        (∀ x ∈ g, ∀ y ∈ g, strcmp x.name y.name = 0) ∧
        (∀ x ∈ g, x.bind = STB_GLOBAL ∧ x.is_defined ≠ 0) ∧
        (∀ x ∈ g, 2 ≤ (v.filter (qualifies x.name)).length) := by
  obtain ⟨s, hs1, hs2, hs3, _⟩ := sort_vec_spec v
  have hlen : s.length = v.length := hs2.1
  rw [← hlen] at hs3
  obtain ⟨gs, hg1, hg2⟩ := stats_loop_spec s (s.length + 1) 0 (by omega)
  simp only [Nat.cast_zero] at hg1
  refine ⟨s, gs, hs1, hg1, by simp only [detect, hs1]; exact hg1, ?_⟩
  intro g hg
  obtain ⟨a, c, _, hc, hac, rfl, hall⟩ := hg2 g hg
  obtain ⟨f1, f2, f3, f4⟩ := group_facts s a c hs3 hc hac hall
  refine ⟨by omega, f4, f3, ?_, ?_⟩
  · intro x hx
    have h := f2 x hx
    simp only [qualifies, Bool.and_eq_true, beq_iff_eq, bne_iff_ne] at h
    exact ⟨h.1.2, h.2⟩
  · intro x hx
    have hxq := f2 x hx
    have hx0 : strcmp x.name (rd s (a : Int)).name = 0 := by
      simp only [qualifies, Bool.and_eq_true, beq_iff_eq, bne_iff_ne] at hxq
      exact hxq.1.1
    have hself : List.filter (qualifies x.name) ((s.drop a).take c) = (s.drop a).take c := by
      rw [List.filter_eq_self]
      intro y hy
      rw [qualifies_congr _ _ _ hx0]
      exact f2 y hy
    have h1 : (List.filter (qualifies x.name) ((s.drop a).take c)).length
        ≤ (List.filter (qualifies x.name) s).length :=
      (f4.sublist.filter _).length_le
    have h2 : (List.filter (qualifies x.name) s).length
        = (List.filter (qualifies x.name) v).length :=
      (hs2.2.1.filter _).length_eq
    rw [hself, f1] at h1
    omega

/-- C3: a collection of `k ≥ 2` records that all carry the same name, global
binding and a set defined flag is sorted into a vector `s` (a rearrangement of
the collection) for which the scan reports exactly one group, `s` itself, with
all `k` members. -/
theorem same_name_records_one_group (v : List entry) (nm : List Nat) (hk : 2 ≤ v.length)
    (hall : ∀ e ∈ v, strcmp e.name nm = 0 ∧ e.bind = STB_GLOBAL ∧ e.is_defined ≠ 0) :
    ∃ s, sort_vec v = some s ∧ s.Perm v ∧ s.length = v.length ∧
      entry_vec_stats s = some [s] ∧ detect v = some [s] := by
  obtain ⟨s, hs1, hs2, _, _⟩ := sort_vec_spec v
  have hlen : s.length = v.length := hs2.1
  have hall2 : ∀ e ∈ s, strcmp e.name nm = 0 ∧ e.bind = STB_GLOBAL ∧ e.is_defined ≠ 0 :=
    fun e he => hall e (hs2.2.1.mem_iff.mp he)
  have hst : entry_vec_stats s = some [s] :=
    stats_all_conf s (by omega) (fun t ht => all_conf s nm hall2 t ht)
  exact ⟨s, hs1, hs2.2.1, hlen, hst, by simp only [detect, hs1]; exact hst⟩

/-- Witness of C3: three modules that each define the global symbol `a`. -/
theorem same_name_records_one_group_witness :
    2 ≤ three_modules_one_symbol.length ∧
    (∀ e ∈ three_modules_one_symbol,
      strcmp e.name [97] = 0 ∧ e.bind = STB_GLOBAL ∧ e.is_defined ≠ 0) ∧
    ∃ s, sort_vec three_modules_one_symbol = some s ∧ s.Perm three_modules_one_symbol ∧
      s.length = three_modules_one_symbol.length ∧
      entry_vec_stats s = some [s] ∧ detect three_modules_one_symbol = some [s] :=
  ⟨by decide, by decide,
    same_name_records_one_group three_modules_one_symbol [97] (by decide) (by decide)⟩

/-- C4: `entry_quicksort(arr, 0, n - 1)` returns for every array (with any fuel
above `n`, always with the same result), keeps the length, and leaves the array
sorted: `cmp_entry(arr[i], arr[j]) <= 0` for all `i < j < n`; an array of at
most one record is returned as it is. -/
theorem entry_quicksort_sorts (arr : List entry) :
    ∃ out, sort_vec arr = some out ∧
      (∀ fuel : Nat, arr.length < fuel →
        entry_quicksort fuel arr 0 ((arr.length : Int) - 1) = some out) ∧
      out.length = arr.length ∧
      (∀ i j : Nat, i < j → j < out.length → cmp_entry (rd out i) (rd out j) ≤ 0) ∧
      (arr.length ≤ 1 → out = arr) := by
  obtain ⟨s, hs1, hs2, hs3, hs4⟩ := sort_vec_spec arr
  refine ⟨s, hs1, ?_, hs2.1, ?_, hs4⟩
  · intro fuel hf
    exact entry_quicksort_fuel_le (arr.length + 1) fuel (by omega) arr 0 _ s hs1
  · intro i j hij hj
    exact hs3 i j (Nat.zero_le _) hij (by rw [← hs2.1]; exact hj)

/-- C5: the output of `entry_quicksort(arr, 0, n - 1)` is a permutation of its
input: every record occurs in it as often as in the input. -/
theorem entry_quicksort_permutes (arr : List entry) :
    ∃ out, sort_vec arr = some out ∧ out.Perm arr ∧ ∀ e : entry, out.count e = arr.count e := by
  obtain ⟨s, hs1, hs2, _, _⟩ := sort_vec_spec arr
  exact ⟨s, hs1, hs2.2.1, fun e => hs2.2.1.count_eq e⟩

/-! ## Claims about the segment validator -/

theorem dynamic_pointer_loop_eq (addr base : Nat) (hdrs : List Phdr) :
    dynamic_pointer_loop addr base hdrs = 0 ∨ dynamic_pointer_loop addr base hdrs = addr := by
  induction hdrs with
  | nil => exact Or.inl rfl
  | cons h hs ih =>
    simp only [dynamic_pointer_loop]
    split_ifs
    · exact Or.inr rfl
    · exact ih

theorem dynamic_pointer_loop_null (addr base : Nat) (hdrs : List Phdr)
    (hnw : ∀ h ∈ hdrs, h.p_type = PT_LOAD → base + h.p_vaddr + h.p_memsz < 2 ^ 64)
    (hno : ∀ h ∈ hdrs, in_segment addr base h = false) :
    dynamic_pointer_loop addr base hdrs = 0 := by
  induction hdrs with
  | nil => rfl
  | cons h hs ih =>
    simp only [dynamic_pointer_loop]
    have hrest := ih (fun x hx => hnw x (List.mem_cons_of_mem _ hx))
      (fun x hx => hno x (List.mem_cons_of_mem _ hx))
    rw [hrest]
    have h1 := hno h (List.mem_cons_self _ _)
    by_cases ht : h.p_type = PT_LOAD
    · have h2 := hnw h (List.mem_cons_self _ _) ht
      have e1 : (base + h.p_vaddr) % 2 ^ 64 = base + h.p_vaddr := Nat.mod_eq_of_lt (by omega)
      have e2 : (base + h.p_vaddr + h.p_memsz) % 2 ^ 64 = base + h.p_vaddr + h.p_memsz :=
        Nat.mod_eq_of_lt h2
      rw [e1, e2]
      simp only [in_segment, ht, beq_self_eq_true, Bool.true_and, Bool.and_eq_false_iff,
        decide_eq_false_iff_not] at h1
      split_ifs with hc
      · exfalso
        rcases h1 with h1 | h1 <;> omega
      · rfl
    · simp [ht]

theorem dynamic_pointer_loop_hit (addr base : Nat) (hdrs : List Phdr) (h : Phdr)
    (hmem : h ∈ hdrs) (hnw : base + h.p_vaddr + h.p_memsz < 2 ^ 64)
    (hin : in_segment addr base h = true) :
    dynamic_pointer_loop addr base hdrs = addr := by
  induction hdrs with
  | nil => exact absurd hmem (List.not_mem_nil _)
  | cons x xs ih =>
    simp only [dynamic_pointer_loop]
    rcases List.mem_cons.mp hmem with hx | hx
    · subst hx
      simp only [in_segment, Bool.and_eq_true, beq_iff_eq, decide_eq_true_eq] at hin
      have e1 : (base + h.p_vaddr) % 2 ^ 64 = base + h.p_vaddr := Nat.mod_eq_of_lt (by omega)
      have e2 : (base + h.p_vaddr + h.p_memsz) % 2 ^ 64 = base + h.p_vaddr + h.p_memsz :=
        Nat.mod_eq_of_lt hnw
      rw [e1, e2]
      rw [if_pos ⟨hin.1.1, by omega, by omega⟩]
    · split_ifs
      · rfl
      · exact ih hx

/-- C6, as stated, fails when a sum wraps: with `base = 8192` and a loadable
segment whose `p_vaddr` is `2 ^ 64 - 4096`, no header satisfies
`p_vaddr <= address - base < p_vaddr + p_memsz` for the address `8200`, and yet
`dynamic_pointer` returns the address `8200` and not `NULL`. -/
theorem dynamic_pointer_wraps :
    (∀ h ∈ [wrapped_segment], in_segment 8200 8192 h = false) ∧
      dynamic_pointer 8200 8192 [wrapped_segment] = 8200 := by
  decide

/-- C6, amended: a null address is always unresolvable; and when
`base + p_vaddr + p_memsz` stays below `2 ^ 64` for every `PT_LOAD` header,
`dynamic_pointer` returns `NULL` whenever no `PT_LOAD` header satisfies
`p_vaddr <= address - base < p_vaddr + p_memsz`, in particular when the address
lies only inside headers of other types. -/
theorem dynamic_pointer_unresolvable (addr base : Nat) (hdrs : List Phdr) :
    (addr = 0 → dynamic_pointer addr base hdrs = 0) ∧
    ((∀ h ∈ hdrs, h.p_type = PT_LOAD → base + h.p_vaddr + h.p_memsz < 2 ^ 64) →
      (∀ h ∈ hdrs, in_segment addr base h = false) →
      dynamic_pointer addr base hdrs = 0) := by
  constructor
  · intro h0
    simp [dynamic_pointer, h0]
  · intro hnw hno
    simp only [dynamic_pointer]
    split_ifs
    · exact dynamic_pointer_loop_null addr base hdrs hnw hno
    · rfl

/-- Witness of C6: the address `4196` lies inside a `PT_NOTE` header only. -/
theorem dynamic_pointer_unresolvable_witness :
    (∀ h ∈ [note_segment], h.p_type = PT_LOAD → 4096 + h.p_vaddr + h.p_memsz < 2 ^ 64) ∧
    (∀ h ∈ [note_segment], in_segment 4196 4096 h = false) ∧
    dynamic_pointer 0 4096 [note_segment] = 0 ∧
    dynamic_pointer 4196 4096 [note_segment] = 0 :=
  ⟨by decide, by decide,
    (dynamic_pointer_unresolvable 0 4096 [note_segment]).1 rfl,
    (dynamic_pointer_unresolvable 4196 4096 [note_segment]).2 (by decide) (by decide)⟩

/-- C7, as stated, fails at the null address: with `base = 0` exactly one
`PT_LOAD` header satisfies `p_vaddr <= address - base < p_vaddr + p_memsz` for the
address `0`, and `dynamic_pointer` returns `NULL`. It also fails where the end of
the segment wraps: the address `2 ^ 64 - 1` lies in exactly one `PT_LOAD` header,
`end_segment`, and `dynamic_pointer` returns `NULL`. -/
theorem dynamic_pointer_null_in_segment :
    ([first_page].filter (in_segment 0 0)).length = 1 ∧
      dynamic_pointer 0 0 [first_page] = 0 ∧
      ([end_segment].filter (in_segment (2 ^ 64 - 1) 0)).length = 1 ∧
      dynamic_pointer (2 ^ 64 - 1) 0 [end_segment] = 0 := by
  decide

/-- C7, amended: for a non-null address and a `PT_LOAD` header of the list that
satisfies `p_vaddr <= address - base < p_vaddr + p_memsz` and whose end
`base + p_vaddr + p_memsz` stays below `2 ^ 64`, `dynamic_pointer` reports the
address as resolvable and returns exactly that address. -/
theorem dynamic_pointer_resolves (addr base : Nat) (hdrs : List Phdr) (h : Phdr)
    (hnz : addr ≠ 0) (hmem : h ∈ hdrs) (hnw : base + h.p_vaddr + h.p_memsz < 2 ^ 64)
    (hin : in_segment addr base h = true) :
    dynamic_pointer addr base hdrs ≠ 0 ∧ dynamic_pointer addr base hdrs = addr := by
  have hl := dynamic_pointer_loop_hit addr base hdrs h hmem hnw hin
  simp only [dynamic_pointer, if_pos hnz, hl]
  exact ⟨hnz, trivial⟩

/-- Witness of C7: an address in the first page of a module loaded at `4096`. -/
theorem dynamic_pointer_resolves_witness :
    (4196 : Nat) ≠ 0 ∧ first_page ∈ [note_segment, first_page] ∧
    4096 + first_page.p_vaddr + first_page.p_memsz < 2 ^ 64 ∧
    in_segment 4196 4096 first_page = true ∧
    dynamic_pointer 4196 4096 [note_segment, first_page] ≠ 0 ∧
    dynamic_pointer 4196 4096 [note_segment, first_page] = 4196 :=
  ⟨by decide, by decide, by decide, by decide,
    dynamic_pointer_resolves 4196 4096 [note_segment, first_page] first_page
      (by decide) (by decide) (by decide) (by decide)⟩

/-! ## The hash-table symbol counter -/

theorem word_at_nat (table : List Nat) (a b : Nat) :
    word_at table ((a : Int) + (b : Int)) = table[a + b]? := by
  have h : ¬ ((a : Int) + (b : Int) < 0) := by omega
  have e : ((a : Int) + (b : Int)).toNat = a + b := by omega
  simp only [word_at, if_neg h, e]

theorem chain_walk_spec (table : List Nat) (C : Nat) :
    ∀ (d fuel j : Nat) (even : Int), d < fuel →
      (∀ k : Nat, j ≤ k → k < j + d → ∃ w : Nat, table[C + k]? = some w ∧ w % 2 = 0) →
      (∃ w : Nat, table[C + (j + d)]? = some w ∧ w % 2 = 1) →
      chain_walk table C fuel j even = some (even + d) := by
  intro d
  induction d with
  | zero =>
    intro fuel j even hf _ hlast
    obtain ⟨f, rfl⟩ : ∃ f, fuel = f + 1 := ⟨fuel - 1, by omega⟩
    obtain ⟨w, hw1, hw2⟩ := hlast
    have hw0 : ¬ w % 2 = 0 := by omega
    simp only [chain_walk, word_at_nat, Nat.add_zero] at hw1 ⊢
    simp [hw1, hw0]
  | succ d ih =>
    intro fuel j even hf hev hlast
    obtain ⟨f, rfl⟩ : ∃ f, fuel = f + 1 := ⟨fuel - 1, by omega⟩
    obtain ⟨w, hw1, hw2⟩ := hev j (le_refl _) (by omega)
    have e1 : j + (d + 1) = j + 1 + d := by omega
    rw [e1] at hlast
    have h := ih f (j + 1) (even + 1) (by omega)
      (fun k hk1 hk2 => hev k (by omega) (by omega)) hlast
    simp only [Nat.cast_add, Nat.cast_one] at h
    simp only [chain_walk, word_at_nat, hw1, hw2, if_true, h]
    congr 1
    push_cast
    ring

theorem to_int_small (x : Nat) (h : x < 2 ^ 31) : to_int (x : Int) = (x : Int) := by
  have e : (x : Int) % 2 ^ 32 = (x : Int) := Int.emod_eq_of_lt (by omega) (by omega)
  simp only [to_int, e]
  rw [if_pos (by omega)]

theorem bucket_loop_spec (table : List Nat) (B C so nb : Nat) (c : Nat → Nat)
    (hb : ∀ i : Nat, i < nb → GnuBucket table B C so i (c i)) :
    ∀ (n i m : Nat), i + n = nb →
      bucket_loop table B C so n i m
        = some ((List.range' i n).foldl (fun acc k => max acc (c k + so)) m) := by
  intro n
  induction n with
  | zero =>
    intro i m _
    simp [bucket_loop]
  | succ n ih =>
    intro i m hin
    obtain ⟨b, h1, h2, h3, h4, h5, h6⟩ := hb i (by omega)
    have hlen : C + c i < table.length := by
      obtain ⟨w, hw, _⟩ := h6
      exact (List.getElem?_eq_some_iff.mp hw).1
    have hbs : (b : Int) - (so : Int) = ((b - so : Nat) : Int) := by omega
    have hwalk := chain_walk_spec table C (c i - (b - so)) (table.length + 1) (b - so) 0
      (by omega) (fun k hk1 hk2 => h5 k hk1 (by omega))
      (by
        have e : b - so + (c i - (b - so)) = c i := by omega
        rw [e]
        exact h6)
    have hmax : (((b : Int) + (0 + ((c i - (b - so) : Nat) : Int))) % 2 ^ 32).toNat
        = c i + so := by
      have e : (b : Int) + (0 + ((c i - (b - so) : Nat) : Int)) = ((c i + so : Nat) : Int) := by
        omega
      rw [e, Int.emod_eq_of_lt (by omega) (by omega)]
      omega
    simp only [bucket_loop, word_at_nat, h1, to_int_small b (by omega), hbs,
      to_int_small (b - so) (by omega), hwalk, hmax]
    rw [ih (i + 1) _ (by omega)]
    simp only [List.range'_succ, List.foldl_cons]
    congr 2
    rcases Nat.lt_or_ge m (c i + so) with hlt | hge
    · rw [if_pos hlt, max_eq_right (le_of_lt hlt)]
    · rw [if_neg (by omega), max_eq_left hge]

theorem gnu_count_spec (table : List Nat) (nb so bs sh : Nat) (c : Nat → Nat)
    (h0 : table[0]? = some nb) (h1 : table[1]? = some so) (h2 : table[2]? = some bs)
    (h3 : table[3]? = some sh)
    (hb : ∀ i : Nat, i < nb → GnuBucket table (4 + bs * 2) (4 + bs * 2 + nb) so i (c i)) :
    gnu_hashtab_symbol_count table
      = some ((List.range nb).foldl (fun acc k => max acc (c k + so)) 0) := by
  have e0 : word_at table 0 = some nb := by simpa [word_at] using h0
  have e1 : word_at table 1 = some so := by simpa [word_at] using h1
  have e2 : word_at table 2 = some bs := by simpa [word_at] using h2
  have e3 : word_at table 3 = some sh := by simpa [word_at] using h3
  simp only [gnu_hashtab_symbol_count, e0, e1, e2, e3]
  rw [bucket_loop_spec table _ _ so nb c hb nb 0 0 (by omega), List.range_eq_range']

theorem foldl_max_ge {α : Type} (c : α → Nat) (l : List α) (m : Nat) :
    m ≤ l.foldl (fun acc k => max acc (c k)) m ∧
      ∀ k ∈ l, c k ≤ l.foldl (fun acc k => max acc (c k)) m := by
  induction l generalizing m with
  | nil => exact ⟨le_refl _, fun k hk => absurd hk (List.not_mem_nil k)⟩
  | cons x xs ih =>
    simp only [List.foldl_cons]
    obtain ⟨h1, h2⟩ := ih (max m (c x))
    refine ⟨le_trans (le_max_left _ _) h1, ?_⟩
    intro k hk
    rcases List.mem_cons.mp hk with hk | hk
    · subst hk
      exact le_trans (le_max_right _ _) h1
    · exact h2 k hk

theorem foldl_max_attained {α : Type} (c : α → Nat) (l : List α) (m : Nat) :
    l.foldl (fun acc k => max acc (c k)) m = m ∨
      ∃ k ∈ l, l.foldl (fun acc k => max acc (c k)) m = c k := by
  induction l generalizing m with
  | nil => exact Or.inl rfl
  | cons x xs ih =>
    simp only [List.foldl_cons]
    rcases ih (max m (c x)) with h | ⟨k, hk, h⟩
    · rcases le_total m (c x) with hle | hle
      · rw [max_eq_right hle] at h ⊢
        exact Or.inr ⟨x, List.mem_cons_self _ _, h⟩
      · rw [max_eq_left hle] at h ⊢
        exact Or.inl h
    · exact Or.inr ⟨k, List.mem_cons_of_mem _ hk, h⟩

theorem two_bucket_table_buckets :
    ∀ i : Nat, i < 2 → GnuBucket two_bucket_table (4 + 1 * 2) (4 + 1 * 2 + 2) 1 i
      (two_bucket_ends i) := by
  intro i hi
  interval_cases i
  · refine ⟨3, by decide, by decide, by decide, by decide, ?_, ⟨5, by decide, by decide⟩⟩
    intro k hk1 hk2
    have hk : k = 2 := by
      simp [two_bucket_ends] at hk2
      omega
    subst hk
    exact ⟨4, by decide, by decide⟩
  · refine ⟨1, by decide, by decide, by decide, by decide, ?_, ⟨3, by decide, by decide⟩⟩
    intro k hk1 hk2
    have hk : k = 0 := by
      simp [two_bucket_ends] at hk2
      omega
    subst hk
    exact ⟨2, by decide, by decide⟩

/-! ## Claims about the hash-table symbol counter -/

/-- C9, as stated, fails: `two_bucket_table` is a well-formed modern hash table
over a symbol table of `5` entries (symbol offset `1`, four chain entries for the
symbols `1 .. 4`), and `gnu_hashtab_symbol_count` returns `4`, the highest symbol
index, not the size `5`. -/
theorem gnu_hashtab_symbol_count_returns_last_index :
    two_bucket_table.length - (4 + 1 * 2 + 2) + 1 = 5 ∧
      gnu_hashtab_symbol_count two_bucket_table = some 4 ∧
      gnu_hashtab_symbol_count two_bucket_table ≠ some 5 := by
  decide

/-- C9, amended: for a modern hash table over a symbol table of size `N` in
which every bucket is non-empty, every chain ends at a low-bit-set entry of a
symbol below `N`, and some chain ends at the symbol `N - 1`,
`gnu_hashtab_symbol_count` returns `N - 1`, the index of the last symbol,
whichever bucket holds it. -/
theorem gnu_hashtab_symbol_count_last_index (table : List Nat) (nb so bs sh N : Nat)
    (c : Nat → Nat) (h0 : table[0]? = some nb) (h1 : table[1]? = some so)
    (h2 : table[2]? = some bs) (h3 : table[3]? = some sh)
    (hb : ∀ i : Nat, i < nb → GnuBucket table (4 + bs * 2) (4 + bs * 2 + nb) so i (c i))
    (hN : ∀ i : Nat, i < nb → c i + so < N)
    (hlast : ∃ i : Nat, i < nb ∧ c i + so + 1 = N) :
    gnu_hashtab_symbol_count table = some (N - 1) := by
  rw [gnu_count_spec table nb so bs sh c h0 h1 h2 h3 hb]
  congr 1
  obtain ⟨i, hi, hiN⟩ := hlast
  have hge := (foldl_max_ge (fun k => c k + so) (List.range nb) 0).2 i (List.mem_range.mpr hi)
  rcases foldl_max_attained (fun k => c k + so) (List.range nb) 0 with h | ⟨k, hk, h⟩
  · simp only at h hge
    omega
  · have hkN := hN k (List.mem_range.mp hk)
    simp only at h hge
    omega

/-- Witness of C9: in `two_bucket_table` the last symbol, `4`, is held by
bucket `0`, and the count is `4 = 5 - 1`. -/
theorem gnu_hashtab_symbol_count_last_index_witness :
    (∀ i : Nat, i < 2 → GnuBucket two_bucket_table (4 + 1 * 2) (4 + 1 * 2 + 2) 1 i
      (two_bucket_ends i)) ∧
    (∀ i : Nat, i < 2 → two_bucket_ends i + 1 < 5) ∧
    (∃ i : Nat, i < 2 ∧ two_bucket_ends i + 1 + 1 = 5) ∧
    gnu_hashtab_symbol_count two_bucket_table = some (5 - 1) :=
  ⟨two_bucket_table_buckets, by decide, ⟨0, by decide, by decide⟩,
    gnu_hashtab_symbol_count_last_index two_bucket_table 2 1 1 6 5 two_bucket_ends
      (by decide) (by decide) (by decide) (by decide) two_bucket_table_buckets (by decide)
      ⟨0, by decide, by decide⟩⟩

/-- C10: for a modern hash table in which every bucket is non-empty and every
chain ends inside the chain array at a low-bit-set entry, with chain index
`c i` for bucket `i`, `gnu_hashtab_symbol_count` returns the maximum over all
buckets of `c i + symoffset`: a value that bounds every `c i + symoffset` and is
one of them, and `0` when there are no buckets. -/
theorem gnu_hashtab_symbol_count_is_max (table : List Nat) (nb so bs sh : Nat)
    (c : Nat → Nat) (h0 : table[0]? = some nb) (h1 : table[1]? = some so)
    (h2 : table[2]? = some bs) (h3 : table[3]? = some sh)
    (hb : ∀ i : Nat, i < nb → GnuBucket table (4 + bs * 2) (4 + bs * 2 + nb) so i (c i)) :
    ∃ r : Nat, gnu_hashtab_symbol_count table = some r ∧
      r = (List.range nb).foldl (fun acc k => max acc (c k + so)) 0 ∧
      (∀ i : Nat, i < nb → c i + so ≤ r) ∧
      ((nb = 0 ∧ r = 0) ∨ ∃ i : Nat, i < nb ∧ r = c i + so) := by
  refine ⟨_, gnu_count_spec table nb so bs sh c h0 h1 h2 h3 hb, rfl, ?_, ?_⟩
  · intro i hi
    exact (foldl_max_ge (fun k => c k + so) (List.range nb) 0).2 i (List.mem_range.mpr hi)
  · rcases Nat.eq_zero_or_pos nb with hz | hpos
    · subst hz
      exact Or.inl ⟨rfl, rfl⟩
    · right
      rcases foldl_max_attained (fun k => c k + so) (List.range nb) 0 with h | ⟨k, hk, h⟩
      · have hge := (foldl_max_ge (fun k => c k + so) (List.range nb) 0).2 0
          (List.mem_range.mpr hpos)
        simp only at h hge
        rw [h] at hge
        exact ⟨0, hpos, by rw [h]; omega⟩
      · exact ⟨k, List.mem_range.mp hk, h⟩

/-- Witness of C10: `two_bucket_table`, whose maximum is reached in bucket `0`. -/
theorem gnu_hashtab_symbol_count_is_max_witness :
    (∀ i : Nat, i < 2 → GnuBucket two_bucket_table (4 + 1 * 2) (4 + 1 * 2 + 2) 1 i
      (two_bucket_ends i)) ∧
    ∃ r : Nat, gnu_hashtab_symbol_count two_bucket_table = some r ∧
      r = (List.range 2).foldl (fun acc k => max acc (two_bucket_ends k + 1)) 0 ∧
      (∀ i : Nat, i < 2 → two_bucket_ends i + 1 ≤ r) ∧
      ((2 = 0 ∧ r = 0) ∨ ∃ i : Nat, i < 2 ∧ r = two_bucket_ends i + 1) :=
  ⟨two_bucket_table_buckets,
    gnu_hashtab_symbol_count_is_max two_bucket_table 2 1 1 6 two_bucket_ends
      (by decide) (by decide) (by decide) (by decide) two_bucket_table_buckets⟩

/-! ## The dynamic-section walk -/

theorem dyn_step_count (mem : Memory) (base : Nat) (hdrs : List Phdr) (cnt : Elf_Dyn → Nat)
    (e : Elf_Dyn) (st : scan_state)
    (hc : usable_hash base hdrs e = true →
      (e.d_tag = DT_HASH →
        (mem.words (dynamic_pointer e.d_ptr base hdrs))[1]? = some (cnt e)) ∧
      (e.d_tag = DT_GNU_HASH →
        gnu_hashtab_symbol_count (mem.words (dynamic_pointer e.d_ptr base hdrs))
          = some (cnt e))) :
    ∃ st1, dyn_step mem base hdrs e st = some st1 ∧
      st1.symbol_count =
        (if usable_hash base hdrs e = true then max st.symbol_count (cnt e)
         else st.symbol_count) := by
  have hmax : ∀ a b : Nat, (if b > a then b else a) = max a b := by
    intro a b
    rcases Nat.lt_or_ge a b with h | h
    · rw [if_pos h, max_eq_right (le_of_lt h)]
    · rw [if_neg (by omega), max_eq_left h]
  by_cases h1 : e.d_tag = DT_HASH
  · by_cases hp : dynamic_pointer e.d_ptr base hdrs = 0
    · have hu : usable_hash base hdrs e = false := by simp [usable_hash, hp]
      refine ⟨st, ?_, by simp [hu]⟩
      simp [dyn_step, h1, hp]
    · have hu : usable_hash base hdrs e = true := by simp [usable_hash, h1, hp]
      have hw := (hc hu).1 h1
      refine ⟨{ st with symbol_count := max st.symbol_count (cnt e) }, ?_, by simp [hu]⟩
      simp only [dyn_step, h1, if_true, ne_eq, hp, not_false_eq_true, hw, hmax]
  · by_cases h2 : e.d_tag = DT_GNU_HASH
    · by_cases hp : dynamic_pointer e.d_ptr base hdrs = 0
      · have hu : usable_hash base hdrs e = false := by simp [usable_hash, hp]
        refine ⟨st, ?_, by simp [hu]⟩
        simp [dyn_step, h1, h2, hp]
      · have hu : usable_hash base hdrs e = true := by simp [usable_hash, h2, hp]
        have hw := (hc hu).2 h2
        refine ⟨{ st with symbol_count := max st.symbol_count (cnt e) }, ?_, by simp [hu]⟩
        have hne : ¬ DT_GNU_HASH = DT_HASH := by decide
        simp only [dyn_step, h2, hne, if_true, if_false, ne_eq, hp, not_false_eq_true, hw, hmax]
    · have hu : usable_hash base hdrs e = false := by simp [usable_hash, h1, h2]
      by_cases h3 : e.d_tag = DT_STRTAB
      · exact ⟨_, by simp only [dyn_step, h1, h2, h3, if_true, if_false]; rfl, by simp [hu]⟩
      · by_cases h4 : e.d_tag = DT_SYMTAB
        · exact ⟨_, by simp only [dyn_step, h1, h2, h3, h4, if_true, if_false]; rfl,
            by simp [hu]⟩
        · exact ⟨st, by simp only [dyn_step, h1, h2, h3, h4, if_false], by simp [hu]⟩

theorem dyn_walk_count (mem : Memory) (base : Nat) (hdrs : List Phdr) (cnt : Elf_Dyn → Nat) :
    ∀ (dyn : List Elf_Dyn) (st0 : scan_state), (∃ e ∈ dyn, e.d_tag = DT_NULL) →
      (∀ e ∈ before_sentinel dyn, usable_hash base hdrs e = true →
        (e.d_tag = DT_HASH →
          (mem.words (dynamic_pointer e.d_ptr base hdrs))[1]? = some (cnt e)) ∧
        (e.d_tag = DT_GNU_HASH →
          gnu_hashtab_symbol_count (mem.words (dynamic_pointer e.d_ptr base hdrs))
            = some (cnt e))) →
      ∃ st, dyn_walk mem base hdrs dyn st0 = some st ∧
        st.symbol_count =
          ((before_sentinel dyn).filter (usable_hash base hdrs)).foldl
            (fun acc e => max acc (cnt e)) st0.symbol_count := by
  intro dyn
  induction dyn with
  | nil =>
    intro st0 hs _
    obtain ⟨e, he, _⟩ := hs
    exact absurd he (List.not_mem_nil e)
  | cons e rest ih =>
    intro st0 hs hc
    by_cases hnull : e.d_tag = DT_NULL
    · refine ⟨st0, by simp [dyn_walk, hnull], ?_⟩
      simp [before_sentinel, hnull]
    · have hbs : before_sentinel (e :: rest) = e :: before_sentinel rest := by
        simp [before_sentinel, hnull]
      have hs2 : ∃ x ∈ rest, x.d_tag = DT_NULL := by
        obtain ⟨x, hx, hx0⟩ := hs
        rcases List.mem_cons.mp hx with h | h
        · subst h
          exact absurd hx0 hnull
        · exact ⟨x, h, hx0⟩
      rw [hbs] at hc
      obtain ⟨st1, hst1, hcount1⟩ :=
        dyn_step_count mem base hdrs cnt e st0 (hc e (List.mem_cons_self _ _))
      obtain ⟨st, hst, hcount⟩ := ih st1 hs2 (fun x hx => hc x (List.mem_cons_of_mem _ hx))
      refine ⟨st, by simp only [dyn_walk, if_neg hnull, hst1, hst], ?_⟩
      rw [hcount, hcount1, hbs]
      by_cases hu : usable_hash base hdrs e = true
      · simp [List.filter_cons, hu]
      · simp [List.filter_cons, hu]

/-! ## Claims about the scanner -/

/-- C8: when the dynamic array has its `DT_NULL` sentinel and every hash-table
entry in front of it whose pointer passes `dynamic_pointer` has a readable count
`cnt e` (legacy `DT_HASH`: the second word of the table, as it is; modern
`DT_GNU_HASH`: the result of `gnu_hashtab_symbol_count`), the walk of `callback`
ends with `symbol_count` equal to the maximum of these counts: it bounds each of
them and is one of them, and it is `0` when there is no such entry. -/
theorem symbol_count_is_max (mem : Memory) (base : Nat) (hdrs : List Phdr)
    (cnt : Elf_Dyn → Nat) (dyn : List Elf_Dyn) (hs : ∃ e ∈ dyn, e.d_tag = DT_NULL)
    (hc : ∀ e ∈ before_sentinel dyn, usable_hash base hdrs e = true →
      (e.d_tag = DT_HASH →
        (mem.words (dynamic_pointer e.d_ptr base hdrs))[1]? = some (cnt e)) ∧
      (e.d_tag = DT_GNU_HASH →
        gnu_hashtab_symbol_count (mem.words (dynamic_pointer e.d_ptr base hdrs))
          = some (cnt e))) :
    ∃ st, dyn_walk mem base hdrs dyn { symtab := 0, strtab := 0, symbol_count := 0 } = some st ∧
      (∀ e ∈ (before_sentinel dyn).filter (usable_hash base hdrs), cnt e ≤ st.symbol_count) ∧
      (((before_sentinel dyn).filter (usable_hash base hdrs) = [] ∧ st.symbol_count = 0) ∨
        ∃ e ∈ (before_sentinel dyn).filter (usable_hash base hdrs),
          st.symbol_count = cnt e) := by
  obtain ⟨st, h1, h2⟩ := dyn_walk_count mem base hdrs cnt dyn
    { symtab := 0, strtab := 0, symbol_count := 0 } hs hc
  simp only at h2
  refine ⟨st, h1, ?_, ?_⟩
  · intro e he
    rw [h2]
    exact (foldl_max_ge cnt _ 0).2 e he
  · rw [h2]
    rcases foldl_max_attained cnt
        ((before_sentinel dyn).filter (usable_hash base hdrs)) 0 with h | ⟨e, he, h⟩
    · cases hl : (before_sentinel dyn).filter (usable_hash base hdrs) with
      | nil => exact Or.inl ⟨rfl, rfl⟩
      | cons x xs =>
        right
        rw [hl] at h
        have hx := (foldl_max_ge cnt (x :: xs) 0).2 x (List.mem_cons_self _ _)
        exact ⟨x, List.mem_cons_self _ _, by omega⟩
    · exact Or.inr ⟨e, he, h⟩

/-- Witness of C8: a module with both encodings, the modern table first; the
larger count, `4`, is kept. -/
theorem symbol_count_is_max_witness :
    (∃ e ∈ both_mem.dyn 4608, e.d_tag = DT_NULL) ∧
    (∃ st, dyn_walk both_mem 4096 demo_headers (both_mem.dyn 4608)
        { symtab := 0, strtab := 0, symbol_count := 0 } = some st ∧
      (∀ e ∈ (before_sentinel (both_mem.dyn 4608)).filter (usable_hash 4096 demo_headers),
        both_counts e ≤ st.symbol_count) ∧
      (((before_sentinel (both_mem.dyn 4608)).filter (usable_hash 4096 demo_headers) = [] ∧
          st.symbol_count = 0) ∨
        ∃ e ∈ (before_sentinel (both_mem.dyn 4608)).filter (usable_hash 4096 demo_headers),
          st.symbol_count = both_counts e)) ∧
    dyn_walk both_mem 4096 demo_headers (both_mem.dyn 4608)
      { symtab := 0, strtab := 0, symbol_count := 0 }
      = some { symtab := 4500, strtab := 4400, symbol_count := 4 } :=
  ⟨by decide,
    symbol_count_is_max both_mem 4096 demo_headers both_counts (both_mem.dyn 4608)
      (by decide) (by decide),
    by decide⟩

/-! ## The collector -/

theorem collect_loop_spec (mem : Memory) (info : dl_phdr_info) (st : scan_state)
    (hc : st.symbol_count + 1 < 2 ^ 32)
    (hmap : st.symbol_count < (mem.symtab st.symtab).length) :
    ∀ (n fuel s : Nat) (vec : entry_vec), s + n = st.symbol_count + 1 → n < fuel →
      ∃ v, collect_loop mem info st fuel s vec = some v ∧
        v.data = vec.data ++ (List.range' s n).filterMap (collected_record mem info st) := by
  intro n
  induction n with
  | zero =>
    intro fuel s vec hs hf
    obtain ⟨f, rfl⟩ : ∃ f, fuel = f + 1 := ⟨fuel - 1, by omega⟩
    refine ⟨vec, ?_, by simp⟩
    simp only [collect_loop]
    rw [if_neg (by omega)]
  | succ n ih =>
    intro fuel s vec hs hf
    obtain ⟨f, rfl⟩ : ∃ f, fuel = f + 1 := ⟨fuel - 1, by omega⟩
    have hsl : s < (mem.symtab st.symtab).length := by omega
    have hnext : (s + 1) % 2 ^ 32 = s + 1 := Nat.mod_eq_of_lt (by omega)
    have hget : (mem.symtab st.symtab)[s]? = some ((mem.symtab st.symtab)[s]) :=
      List.getElem?_eq_getElem hsl
    simp only [collect_loop]
    rw [if_pos (by omega), hget, hnext]
    simp only [List.range'_succ, List.filterMap_cons, collected_record, hget]
    by_cases hp : dynamic_pointer ((info.dlpi_addr + ((mem.symtab st.symtab)[s]).st_value) % 2 ^ 64)
        info.dlpi_addr info.dlpi_phdr = 0
    · simp only [hp, if_true, ne_eq, not_true_eq_false, if_false]
      exact ih f (s + 1) vec (by omega) (by omega)
    · simp only [hp, if_false, ne_eq, not_false_eq_true, if_true]
      obtain ⟨v, hv1, hv2⟩ := ih f (s + 1)
        (entry_vec_push vec (symbol_record mem info.dlpi_name st.strtab
          ((mem.symtab st.symtab)[s]))) (by omega) (by omega)
      refine ⟨v, hv1, ?_⟩
      rw [hv2]
      simp [entry_vec_push, collected_record]

theorem callback_loop_no_dynamic (mem : Memory) (info : dl_phdr_info) (hs : List Phdr)
    (vec : entry_vec) (h : ∀ x ∈ hs, x.p_type ≠ PT_DYNAMIC) :
    callback_loop mem info hs vec = some vec := by
  induction hs with
  | nil => rfl
  | cons x xs ih =>
    simp only [callback_loop]
    rw [if_pos (h x (List.mem_cons_self _ _))]
    exact ih (fun y hy => h y (List.mem_cons_of_mem _ hy))

theorem callback_loop_single (mem : Memory) (info : dl_phdr_info) (pre post : List Phdr)
    (d : Phdr) (vec v : entry_vec) (hpre : ∀ x ∈ pre, x.p_type ≠ PT_DYNAMIC)
    (hpost : ∀ x ∈ post, x.p_type ≠ PT_DYNAMIC) (hd : d.p_type = PT_DYNAMIC)
    (hseg : scan_segment mem info d vec = some v) :
    callback_loop mem info (pre ++ d :: post) vec = some v := by
  induction pre with
  | nil =>
    simp only [List.nil_append, callback_loop, hd, ne_eq, not_true_eq_false, if_false, hseg]
    exact callback_loop_no_dynamic mem info post v hpost
  | cons x xs ih =>
    simp only [List.cons_append, callback_loop]
    rw [if_pos (hpre x (List.mem_cons_self _ _))]
    exact ih (fun y hy => hpre y (List.mem_cons_of_mem _ hy))

theorem callback_loop_skips (mem : Memory) (info : dl_phdr_info) (hs : List Phdr)
    (vec : entry_vec)
    (h : ∀ d ∈ hs, d.p_type = PT_DYNAMIC → scan_segment mem info d vec = some vec) :
    callback_loop mem info hs vec = some vec := by
  induction hs with
  | nil => rfl
  | cons x xs ih =>
    simp only [callback_loop]
    by_cases hx : x.p_type = PT_DYNAMIC
    · simp only [hx, ne_eq, not_true_eq_false, if_false, h x (List.mem_cons_self _ _) hx]
      exact ih (fun y hy => h y (List.mem_cons_of_mem _ hy))
    · rw [if_pos hx]
      exact ih (fun y hy => h y (List.mem_cons_of_mem _ hy))

theorem dyn_walk_sentinel (mem : Memory) (base : Nat) (hdrs : List Phdr) :
    ∀ (dyn : List Elf_Dyn) (st0 st : scan_state), dyn_walk mem base hdrs dyn st0 = some st →
      ∃ e ∈ dyn, e.d_tag = DT_NULL := by
  intro dyn
  induction dyn with
  | nil =>
    intro st0 st h
    simp [dyn_walk] at h
  | cons e rest ih =>
    intro st0 st h
    by_cases hnull : e.d_tag = DT_NULL
    · exact ⟨e, List.mem_cons_self _ _, hnull⟩
    · simp only [dyn_walk, if_neg hnull] at h
      cases hstep : dyn_step mem base hdrs e st0 with
      | none => simp [hstep] at h
      | some st1 =>
        simp only [hstep] at h
        obtain ⟨x, hx, hx0⟩ := ih st1 st h
        exact ⟨x, List.mem_cons_of_mem _ hx, hx0⟩

theorem dyn_walk_no_hash (mem : Memory) (base : Nat) (hdrs : List Phdr) (dyn : List Elf_Dyn)
    (st : scan_state)
    (hw : dyn_walk mem base hdrs dyn { symtab := 0, strtab := 0, symbol_count := 0 } = some st)
    (hno : (before_sentinel dyn).filter (usable_hash base hdrs) = []) :
    st.symbol_count = 0 := by
  have hs := dyn_walk_sentinel mem base hdrs dyn _ st hw
  obtain ⟨st1, h1, h2⟩ := dyn_walk_count mem base hdrs (fun _ => 0) dyn
    { symtab := 0, strtab := 0, symbol_count := 0 } hs
    (by
      intro e he hu
      have : e ∈ (before_sentinel dyn).filter (usable_hash base hdrs) :=
        List.mem_filter.mpr ⟨he, hu⟩
      rw [hno] at this
      exact absurd this (List.not_mem_nil e))
  rw [hw] at h1
  cases h1
  rw [h2, hno]
  rfl

/-! ## Claims about the collector -/

/-- C11, evaluated on the code: the symbol `b` of `gnu_symtab` has the section
index `256`, which is non-zero, and the record that `callback` collects for it
has the defined flag `0`; the flag is the section index cut down to an
`unsigned char`. -/
theorem defined_flag_truncated :
    gnu_symtab.map (fun sym => sym.st_shndx) = [0, 12, 256, 0, 12] ∧
    (callback gnu_mem demo_info entry_vec_init).map
        (fun r => r.1.data.map (fun e => (e.name, e.is_defined)))
      = some [([], 0), ([97], 12), ([98], 0), ([99], 0)] ∧
    (∀ (mem : Memory) (name : String) (strtab : Nat) (sym : Elf_Sym),
      (symbol_record mem name strtab sym).is_defined = sym.st_shndx % 256) := by
  refine ⟨by decide, by decide, ?_⟩
  intro mem name strtab sym
  rfl

/-- C12: for a module with one dynamic segment whose walk ends in a state that is
not skipped, with derived count `c` below `2 ^ 32 - 1` and the symbol-table
entries `0 .. c` mapped, `callback` returns `0` and appends to the collection, in
increasing index order, exactly one record for every index `s` in `0 .. c` (both
ends included) whose address `base + st_value` passes `dynamic_pointer`; the
records already collected stay in front, unchanged. Each record carries the
module's name, the string at `strtab + st_name`, `st_info >> 4` as binding and
`st_info & 0xf` as type. -/
theorem callback_collects (mem : Memory) (info : dl_phdr_info) (vec : entry_vec)
    (pre post : List Phdr) (d : Phdr) (st : scan_state)
    (hh : info.dlpi_phdr = pre ++ d :: post)
    (hpre : ∀ x ∈ pre, x.p_type ≠ PT_DYNAMIC) (hpost : ∀ x ∈ post, x.p_type ≠ PT_DYNAMIC)
    (hd : d.p_type = PT_DYNAMIC)
    (hwalk : dyn_walk mem info.dlpi_addr info.dlpi_phdr
      (mem.dyn ((info.dlpi_addr + d.p_vaddr) % 2 ^ 64))
      { symtab := 0, strtab := 0, symbol_count := 0 } = some st)
    (hns : st.symtab ≠ 0 ∧ st.strtab ≠ 0 ∧ st.symbol_count ≠ 0)
    (hc : st.symbol_count + 1 < 2 ^ 32)
    (hmap : st.symbol_count < (mem.symtab st.symtab).length) :
    ∃ v, callback mem info vec = some (v, 0) ∧
      v.data = vec.data ++
        (List.range (st.symbol_count + 1)).filterMap (collected_record mem info st) ∧
      ∀ sym : Elf_Sym, sym.st_info < 256 →
        (symbol_record mem info.dlpi_name st.strtab sym).src = info.dlpi_name ∧
        (symbol_record mem info.dlpi_name st.strtab sym).name
          = mem.str (st.strtab + sym.st_name) ∧
        (symbol_record mem info.dlpi_name st.strtab sym).bind = sym.st_info / 16 ∧
        (symbol_record mem info.dlpi_name st.strtab sym).type = sym.st_info % 16 := by
  obtain ⟨v, hv1, hv2⟩ := collect_loop_spec mem info st hc hmap (st.symbol_count + 1)
    (st.symbol_count + 2) 0 vec (by omega) (by omega)
  have hseg : scan_segment mem info d vec = some v := by
    simp only [scan_segment, hwalk]
    rw [if_neg (by
      intro h
      rcases h with h | h | h
      · exact hns.1 h
      · exact hns.2.1 h
      · exact hns.2.2 h)]
    exact hv1
  have hloop := callback_loop_single mem info pre post d vec v hpre hpost hd hseg
  refine ⟨v, by simp only [callback, hh, hloop], ?_, ?_⟩
  · rw [hv2, List.range_eq_range']
  · intro sym hsym
    refine ⟨rfl, rfl, ?_, ?_⟩
    · simp only [symbol_record]
      exact Nat.mod_eq_of_lt (by omega)
    · simp only [symbol_record]
      exact Nat.mod_eq_of_lt (by omega)

/-- Witness of C12: the module with the modern hash table, derived count `4`;
the indices `0 .. 3` resolve and index `4` does not. -/
theorem callback_collects_witness :
    demo_info.dlpi_phdr = [{ p_type := PT_LOAD, p_vaddr := 0, p_memsz := 4096 }]
      ++ { p_type := PT_DYNAMIC, p_vaddr := 512, p_memsz := 64 } :: [] ∧
    dyn_walk gnu_mem demo_info.dlpi_addr demo_info.dlpi_phdr
      (gnu_mem.dyn ((demo_info.dlpi_addr + 512) % 2 ^ 64))
      { symtab := 0, strtab := 0, symbol_count := 0 }
      = some { symtab := 4500, strtab := 4400, symbol_count := 4 } ∧
    (List.range (4 + 1)).filterMap
        (collected_record gnu_mem demo_info { symtab := 4500, strtab := 4400, symbol_count := 4 })
      = [{ src := "libdemo.so", name := [], type := 0, bind := 0, is_defined := 0 },
         { src := "libdemo.so", name := [97], type := 2, bind := 1, is_defined := 12 },
         { src := "libdemo.so", name := [98], type := 2, bind := 1, is_defined := 0 },
         { src := "libdemo.so", name := [99], type := 2, bind := 1, is_defined := 0 }] ∧
    ∃ v, callback gnu_mem demo_info { data := [sym_a_A], cap := 8 } = some (v, 0) ∧
      v.data = [sym_a_A] ++ (List.range (4 + 1)).filterMap
        (collected_record gnu_mem demo_info
          { symtab := 4500, strtab := 4400, symbol_count := 4 }) ∧
      ∀ sym : Elf_Sym, sym.st_info < 256 →
        (symbol_record gnu_mem demo_info.dlpi_name 4400 sym).src = demo_info.dlpi_name ∧
        (symbol_record gnu_mem demo_info.dlpi_name 4400 sym).name
          = gnu_mem.str (4400 + sym.st_name) ∧
        (symbol_record gnu_mem demo_info.dlpi_name 4400 sym).bind = sym.st_info / 16 ∧
        (symbol_record gnu_mem demo_info.dlpi_name 4400 sym).type = sym.st_info % 16 :=
  ⟨by decide, by decide, by decide,
    callback_collects gnu_mem demo_info { data := [sym_a_A], cap := 8 }
      [{ p_type := PT_LOAD, p_vaddr := 0, p_memsz := 4096 }] []
      { p_type := PT_DYNAMIC, p_vaddr := 512, p_memsz := 64 }
      { symtab := 4500, strtab := 4400, symbol_count := 4 }
      (by decide) (by decide) (by decide) (by decide) (by decide) (by decide) (by decide)
      (by decide)⟩

/-- C13: when, for every dynamic segment of a module, the walk ends with the
symbol-table pointer missing, or the string-table pointer missing, or without a
usable hash-table entry, or with a derived count of zero, `callback` appends no
record, leaves the collection as it is and returns `0`. -/
theorem callback_skips (mem : Memory) (info : dl_phdr_info) (vec : entry_vec)
    (hskip : ∀ d ∈ info.dlpi_phdr, d.p_type = PT_DYNAMIC →
      ∃ st, dyn_walk mem info.dlpi_addr info.dlpi_phdr
          (mem.dyn ((info.dlpi_addr + d.p_vaddr) % 2 ^ 64))
          { symtab := 0, strtab := 0, symbol_count := 0 } = some st ∧
        (st.symtab = 0 ∨ st.strtab = 0 ∨
          (before_sentinel (mem.dyn ((info.dlpi_addr + d.p_vaddr) % 2 ^ 64))).filter
            (usable_hash info.dlpi_addr info.dlpi_phdr) = [] ∨
          st.symbol_count = 0)) :
    callback mem info vec = some (vec, 0) := by
  have hloop : callback_loop mem info info.dlpi_phdr vec = some vec := by
    apply callback_loop_skips
    intro d hd hdt
    obtain ⟨st, hw, hcase⟩ := hskip d hd hdt
    have hz : st.symtab = 0 ∨ st.strtab = 0 ∨ st.symbol_count = 0 := by
      rcases hcase with h | h | h | h
      · exact Or.inl h
      · exact Or.inr (Or.inl h)
      · exact Or.inr (Or.inr (dyn_walk_no_hash mem _ _ _ st hw h))
      · exact Or.inr (Or.inr h)
    simp only [scan_segment, hw]
    rw [if_pos hz]
  simp only [callback, hloop]

/-- Witness of C13: a module whose dynamic section names no hash table. -/
theorem callback_skips_witness :
    (∀ d ∈ demo_info.dlpi_phdr, d.p_type = PT_DYNAMIC →
      ∃ st, dyn_walk bare_mem demo_info.dlpi_addr demo_info.dlpi_phdr
          (bare_mem.dyn ((demo_info.dlpi_addr + d.p_vaddr) % 2 ^ 64))
          { symtab := 0, strtab := 0, symbol_count := 0 } = some st ∧
        (st.symtab = 0 ∨ st.strtab = 0 ∨
          (before_sentinel (bare_mem.dyn ((demo_info.dlpi_addr + d.p_vaddr) % 2 ^ 64))).filter
            (usable_hash demo_info.dlpi_addr demo_info.dlpi_phdr) = [] ∨
          st.symbol_count = 0)) ∧
    callback bare_mem demo_info { data := [sym_a_A], cap := 8 }
      = some ({ data := [sym_a_A], cap := 8 }, 0) := by
  have h : ∀ d ∈ demo_info.dlpi_phdr, d.p_type = PT_DYNAMIC →
      ∃ st, dyn_walk bare_mem demo_info.dlpi_addr demo_info.dlpi_phdr
          (bare_mem.dyn ((demo_info.dlpi_addr + d.p_vaddr) % 2 ^ 64))
          { symtab := 0, strtab := 0, symbol_count := 0 } = some st ∧
        (st.symtab = 0 ∨ st.strtab = 0 ∨
          (before_sentinel (bare_mem.dyn ((demo_info.dlpi_addr + d.p_vaddr) % 2 ^ 64))).filter
            (usable_hash demo_info.dlpi_addr demo_info.dlpi_phdr) = [] ∨
          st.symbol_count = 0) := by
    intro d hd hdt
    have hd2 : d = { p_type := PT_DYNAMIC, p_vaddr := 512, p_memsz := 64 } := by
      simp only [demo_info, demo_headers, List.mem_cons, List.mem_singleton,
        List.not_mem_nil, or_false] at hd
      rcases hd with hd | hd
      · subst hd
        exact absurd hdt (by decide)
      · exact hd
    subst hd2
    exact ⟨{ symtab := 4500, strtab := 4400, symbol_count := 0 }, by decide,
      Or.inr (Or.inr (Or.inl (by decide)))⟩
  exact ⟨h, callback_skips bare_mem demo_info { data := [sym_a_A], cap := 8 } h⟩

/-- C20, evaluated on the code: the module's legacy hash table stores the count
`3`, the number of entries of its symbol table; the walk derives the count `3`,
the collector loop runs for `s = 0, 1, 2, 3`, and at `s = 3` it reads the entry
`symtab[3]`, which lies past the end of the table. -/
theorem collector_reads_past_legacy_table :
    legacy_table[1]? = some legacy_symtab.length ∧
    dyn_walk legacy_mem demo_info.dlpi_addr demo_info.dlpi_phdr (legacy_mem.dyn 4608)
      { symtab := 0, strtab := 0, symbol_count := 0 }
      = some { symtab := 4500, strtab := 4400, symbol_count := 3 } ∧
    (legacy_mem.symtab 4500)[3]? = none ∧
    collect_loop legacy_mem demo_info { symtab := 4500, strtab := 4400, symbol_count := 3 }
      2 3 entry_vec_init = none ∧
    callback legacy_mem demo_info entry_vec_init = none := by
  decide

/-- C17, evaluated on the code: `empty_bucket_table` is the modern hash table of
a module without exported symbols (one empty bucket, symbol offset `1`, no chain
entry). For the empty bucket the walk starts at chain index `0 - 1 = -1`, in
front of the chain array, where it reads the bucket word `0`; the next read, at
chain index `0`, lies after the end of the table. -/
theorem chain_walk_leaves_chain_array :
    to_int ((0 : Int) - (1 : Int)) = -1 ∧
    word_at empty_bucket_table ((6 + 1 : Nat) + (-1 : Int)) = some 0 ∧
    word_at empty_bucket_table ((6 + 1 : Nat) + (0 : Int)) = none ∧
    chain_walk empty_bucket_table (6 + 1) (empty_bucket_table.length + 1) (-1) 0 = none ∧
    gnu_hashtab_symbol_count empty_bucket_table = none := by
  decide

/-! ## The sorted order and the composite key -/

theorem cmp_entry_eq_zero_iff (a b : entry) : cmp_entry a b = 0 ↔ same_key a b := by
  simp only [cmp_entry, same_key]
  constructor
  · intro h
    split_ifs at h with h1 h2 h3
    · exact absurd h h1
    · exact absurd h h2
    · exact absurd h h3
    · refine ⟨by omega, by omega, by omega, by omega⟩
  · rintro ⟨h1, h2, h3, h4⟩
    rw [h1, h2, h3, h4]
    simp

theorem cmp_entry_le_fields (x y : entry) (h : cmp_entry x y ≤ 0) :
    strcmp x.name y.name ≤ 0 ∧
      (strcmp x.name y.name = 0 → x.bind ≤ y.bind ∧
        (x.bind = y.bind → x.is_defined ≤ y.is_defined ∧
          (x.is_defined = y.is_defined → x.type ≤ y.type))) := by
  simp only [cmp_entry] at h
  split_ifs at h with h1 h2 h3
  · exact ⟨h, fun h0 => absurd h0 h1⟩
  · refine ⟨by omega, fun _ => ⟨by omega, fun hb => ?_⟩⟩
    omega
  · refine ⟨by omega, fun _ => ⟨by omega, fun _ => ⟨by omega, fun hd => ?_⟩⟩⟩
    omega
  · exact ⟨by omega, fun _ => ⟨by omega, fun _ => ⟨by omega, fun _ => by omega⟩⟩⟩

theorem sorted_block (s : List entry) (hs : SortedRange 0 s.length s) (i k j : Nat)
    (hik : i < k) (hkj : k < j) (hj : j < s.length)
    (h : cmp_entry (rd s i) (rd s j) = 0) :
    cmp_entry (rd s i) (rd s k) = 0 ∧ cmp_entry (rd s k) (rd s j) = 0 := by
  have h1 := hs i k (Nat.zero_le _) hik (by omega)
  have h2 := hs k j (Nat.zero_le _) hkj hj
  have hji : cmp_entry (rd s j) (rd s i) ≤ 0 := by
    have := cmp_entry_swap (rd s i) (rd s j)
    omega
  have hki := cmp_entry_le_trans _ _ _ h2 hji
  have hjk := cmp_entry_le_trans _ _ _ hji h1
  have e1 := cmp_entry_swap (rd s i) (rd s k)
  have e2 := cmp_entry_swap (rd s k) (rd s j)
  constructor <;> omega

theorem sorted_names (s : List entry) (hs : SortedRange 0 s.length s) (i k j : Nat)
    (hik : i < k) (hkj : k < j) (hj : j < s.length)
    (h : strcmp (rd s i).name (rd s j).name = 0) :
    strcmp (rd s i).name (rd s k).name = 0 ∧ strcmp (rd s k).name (rd s j).name = 0 := by
  have h1 := (cmp_entry_le_fields _ _ (hs i k (Nat.zero_le _) hik (by omega))).1
  have h2 := (cmp_entry_le_fields _ _ (hs k j (Nat.zero_le _) hkj hj)).1
  have e1 := strcmp_congr_right (rd s k).name (rd s i).name (rd s j).name h
  have e2 := strcmp_swap (rd s i).name (rd s k).name
  have e3 := strcmp_congr_left (rd s i).name (rd s j).name (rd s k).name h
  have e4 := strcmp_swap (rd s k).name (rd s j).name
  constructor <;> omega

theorem sorted_global_defined (s : List entry) (hs : SortedRange 0 s.length s) (i k j : Nat)
    (hik : i < k) (hkj : k < j) (hj : j < s.length)
    (h : strcmp (rd s i).name (rd s j).name = 0)
    (hi : (rd s i).bind = STB_GLOBAL ∧ (rd s i).is_defined ≠ 0)
    (hjg : (rd s j).bind = STB_GLOBAL ∧ (rd s j).is_defined ≠ 0) :
    (rd s k).bind = STB_GLOBAL ∧ (rd s k).is_defined ≠ 0 := by
  obtain ⟨n1, n2⟩ := sorted_names s hs i k j hik hkj hj h
  have f1 := (cmp_entry_le_fields _ _ (hs i k (Nat.zero_le _) hik (by omega))).2 n1
  have f2 := (cmp_entry_le_fields _ _ (hs k j (Nat.zero_le _) hkj hj)).2 n2
  have hb : (rd s k).bind = STB_GLOBAL := by
    have := f1.1
    have := f2.1
    omega
  refine ⟨hb, ?_⟩
  have f3 := (f1.2 (by rw [hi.1, hb])).1
  have := hi.2
  omega

theorem strcmp_sign (a : List Nat) :
    ∀ b : List Nat,
      (strcmp a b < 0 ↔ bytes_compare (cstr a) (cstr b) = Ordering.lt) ∧
      (strcmp a b = 0 ↔ bytes_compare (cstr a) (cstr b) = Ordering.eq) ∧
      (0 < strcmp a b ↔ bytes_compare (cstr a) (cstr b) = Ordering.gt) := by
  induction a with
  | nil =>
    intro b
    cases b with
    | nil => simp [strcmp, cstr, bytes_compare]
    | cons y ys =>
      by_cases hy : y = 0
      · subst hy
        simp [strcmp, cstr, bytes_compare]
      · have hy2 : 0 < y := Nat.pos_of_ne_zero hy
        simp [strcmp, cstr, bytes_compare, hy]
        omega
  | cons x xs ih =>
    intro b
    cases b with
    | nil =>
      by_cases hx : x = 0
      · subst hx
        simp [strcmp, cstr, bytes_compare]
      · have hx2 : 0 < x := Nat.pos_of_ne_zero hx
        simp [strcmp, cstr, bytes_compare, hx]
        omega
    | cons y ys =>
      by_cases hxy : x = y
      · subst hxy
        by_cases hx : x = 0
        · subst hx
          simp [strcmp, cstr, bytes_compare]
        · have h := ih ys
          simp only [cstr] at h
          simp [strcmp, cstr, bytes_compare, hx, h]
      · by_cases hx : x = 0
        · subst hx
          have hy : y ≠ 0 := fun h => hxy h.symm
          have hy2 : 0 < y := Nat.pos_of_ne_zero hy
          simp [strcmp, cstr, bytes_compare, hxy, hy]
          omega
        · by_cases hy : y = 0
          · subst hy
            have hx2 : 0 < x := Nat.pos_of_ne_zero hx
            simp [strcmp, cstr, bytes_compare, hx]
            omega
          · rcases Nat.lt_or_gt_of_ne hxy with hlt | hgt
            · have hn : ¬ y < x := by omega
              simp [strcmp, cstr, bytes_compare, hxy, hx, hy, hlt]
              omega
            · have hn : ¬ x < y := by omega
              simp [strcmp, cstr, bytes_compare, hxy, hx, hy, hn, hgt]
              omega

theorem cmp_entry_sign (l r : entry) :
    (cmp_entry l r < 0 ↔ key_compare l r = Ordering.lt) ∧
    (cmp_entry l r = 0 ↔ key_compare l r = Ordering.eq) ∧
    (0 < cmp_entry l r ↔ key_compare l r = Ordering.gt) := by
  obtain ⟨s1, s2, s3⟩ := strcmp_sign l.name r.name
  simp only [cmp_entry, key_compare, nat_compare]
  cases hb : bytes_compare (cstr l.name) (cstr r.name) with
  | lt =>
    have h := s1.mpr hb
    have hne : strcmp l.name r.name ≠ 0 := by omega
    simp only [Ordering.then, hne, ne_eq, not_false_eq_true, if_true]
    refine ⟨by simp [h], by simp [hne], by simp; omega⟩
  | gt =>
    have h := s3.mpr hb
    have hne : strcmp l.name r.name ≠ 0 := by omega
    simp only [Ordering.then, hne, ne_eq, not_false_eq_true, if_true]
    refine ⟨by simp; omega, by simp [hne], by simp [h]⟩
  | eq =>
    have h := s2.mpr hb
    simp only [Ordering.then, h, ne_eq, not_true_eq_false, if_false]
    split_ifs <;> simp <;> omega

/-! ## Claims about the sorted order and the composite key -/

/-- C14, as stated, fails: the records `a` of `libA.so` and of `libB.so` have an
identical key and different modules; `entry_quicksort` turns the collection
`[a@libA.so, a@libB.so]` into `[a@libB.so, a@libA.so]`, so their relative order is
not preserved. -/
theorem entry_quicksort_not_stable :
    same_key sym_a_A sym_a_B ∧ sym_a_A.src ≠ sym_a_B.src ∧
      sort_vec [sym_a_A, sym_a_B] = some [sym_a_B, sym_a_A] := by
  refine ⟨(cmp_entry_eq_zero_iff _ _).mp (by decide), by decide, by decide⟩

/-- C14, amended: in the output of `entry_quicksort` two records with an identical
key (name, binding, defined flag, type) stay together: every record placed
between them has the same key, so that two such records with nothing of their
key between them are adjacent; their relative order is not promised. -/
theorem equal_keys_stay_together (v : List entry) :
    ∃ s, sort_vec v = some s ∧ s.Perm v ∧
      ∀ i k j : Nat, i < k → k < j → j < s.length → same_key (rd s i) (rd s j) →
        same_key (rd s i) (rd s k) ∧ same_key (rd s k) (rd s j) := by
  obtain ⟨s, hs1, hs2, hs3, _⟩ := sort_vec_spec v
  rw [← hs2.1] at hs3
  refine ⟨s, hs1, hs2.2.1, ?_⟩
  intro i k j hik hkj hj hkey
  have h := sorted_block s hs3 i k j hik hkj hj ((cmp_entry_eq_zero_iff _ _).mpr hkey)
  exact ⟨(cmp_entry_eq_zero_iff _ _).mp h.1, (cmp_entry_eq_zero_iff _ _).mp h.2⟩

/-- Witness of C14: three records `a` with an identical key, from three modules. -/
theorem equal_keys_stay_together_witness :
    ∃ s, sort_vec three_modules_one_symbol = some s ∧ s.Perm three_modules_one_symbol ∧
      ∀ i k j : Nat, i < k → k < j → j < s.length → same_key (rd s i) (rd s j) →
        same_key (rd s i) (rd s k) ∧ same_key (rd s k) (rd s j) :=
  equal_keys_stay_together three_modules_one_symbol

/-- C15: in the output of `entry_quicksort` the records of one name occupy a
contiguous range of indices, within it the records that are globally bound and
defined occupy a contiguous sub-range, and the records of one key are
contiguous: whatever lies between two such records is of the same kind. -/
theorem sorted_ranges_contiguous (v : List entry) :
    ∃ s, sort_vec v = some s ∧ s.Perm v ∧
      ∀ i k j : Nat, i < k → k < j → j < s.length →
        (strcmp (rd s i).name (rd s j).name = 0 →
          strcmp (rd s i).name (rd s k).name = 0 ∧ strcmp (rd s k).name (rd s j).name = 0) ∧
        (strcmp (rd s i).name (rd s j).name = 0 →
          (rd s i).bind = STB_GLOBAL ∧ (rd s i).is_defined ≠ 0 →
          (rd s j).bind = STB_GLOBAL ∧ (rd s j).is_defined ≠ 0 →
          (rd s k).bind = STB_GLOBAL ∧ (rd s k).is_defined ≠ 0) ∧
        (same_key (rd s i) (rd s j) →
          same_key (rd s i) (rd s k) ∧ same_key (rd s k) (rd s j)) := by
  obtain ⟨s, hs1, hs2, hs3, _⟩ := sort_vec_spec v
  rw [← hs2.1] at hs3
  refine ⟨s, hs1, hs2.2.1, ?_⟩
  intro i k j hik hkj hj
  refine ⟨sorted_names s hs3 i k j hik hkj hj,
    sorted_global_defined s hs3 i k j hik hkj hj, ?_⟩
  intro hkey
  have h := sorted_block s hs3 i k j hik hkj hj ((cmp_entry_eq_zero_iff _ _).mpr hkey)
  exact ⟨(cmp_entry_eq_zero_iff _ _).mp h.1, (cmp_entry_eq_zero_iff _ _).mp h.2⟩

/-- Witness of C15: the collection of the symbols `a` and `b` of three modules. -/
theorem sorted_ranges_contiguous_witness :
    ∃ s, sort_vec collected_abc = some s ∧ s.Perm collected_abc ∧
      ∀ i k j : Nat, i < k → k < j → j < s.length →
        (strcmp (rd s i).name (rd s j).name = 0 →
          strcmp (rd s i).name (rd s k).name = 0 ∧ strcmp (rd s k).name (rd s j).name = 0) ∧
        (strcmp (rd s i).name (rd s j).name = 0 →
          (rd s i).bind = STB_GLOBAL ∧ (rd s i).is_defined ≠ 0 →
          (rd s j).bind = STB_GLOBAL ∧ (rd s j).is_defined ≠ 0 →
          (rd s k).bind = STB_GLOBAL ∧ (rd s k).is_defined ≠ 0) ∧
        (same_key (rd s i) (rd s j) →
          same_key (rd s i) (rd s k) ∧ same_key (rd s k) (rd s j)) :=
  sorted_ranges_contiguous collected_abc

/-- C16: in an array sorted by `cmp_entry`, for adjacent entries `a = arr[i]` and
`b = arr[i + 1]`, `conflict_condition(a, b)` holds if and only if `a` and `b` have
the same name, both have global binding and both are marked defined. -/
theorem conflict_condition_iff (arr : List entry) (i : Nat)
    (hs : ∀ p q : Nat, p < q → q < arr.length → cmp_entry (rd arr p) (rd arr q) ≤ 0)
    (hi : i + 1 < arr.length) :
    conflict_condition (rd arr (i : Int)) (rd arr ((i : Int) + 1)) = true ↔
      (strcmp (rd arr (i : Int)).name (rd arr ((i : Int) + 1)).name = 0 ∧
        (rd arr (i : Int)).bind = STB_GLOBAL ∧ (rd arr ((i : Int) + 1)).bind = STB_GLOBAL ∧
        (rd arr (i : Int)).is_defined ≠ 0 ∧ (rd arr ((i : Int) + 1)).is_defined ≠ 0) := by
  constructor
  · intro hc
    exact conf_pair arr i (fun p q _ hpq hq => hs p q hpq hq) ⟨hi, hc⟩
  · rintro ⟨h1, h2, h3, h4, _⟩
    simp only [conflict_condition, Bool.and_eq_true, beq_iff_eq, bne_iff_ne]
    exact ⟨⟨⟨h1, by rw [h2, h3]⟩, h2⟩, h4⟩

/-- Witness of C16: the sorted pair `a@libB.so, a@libA.so`. -/
theorem conflict_condition_iff_witness :
    (∀ p q : Nat, p < q → q < [sym_a_B, sym_a_A].length →
      cmp_entry (rd [sym_a_B, sym_a_A] p) (rd [sym_a_B, sym_a_A] q) ≤ 0) ∧
    0 + 1 < [sym_a_B, sym_a_A].length ∧
    (conflict_condition (rd [sym_a_B, sym_a_A] ((0 : Nat) : Int))
        (rd [sym_a_B, sym_a_A] (((0 : Nat) : Int) + 1)) = true ↔
      (strcmp (rd [sym_a_B, sym_a_A] ((0 : Nat) : Int)).name
          (rd [sym_a_B, sym_a_A] (((0 : Nat) : Int) + 1)).name = 0 ∧
        (rd [sym_a_B, sym_a_A] ((0 : Nat) : Int)).bind = STB_GLOBAL ∧
        (rd [sym_a_B, sym_a_A] (((0 : Nat) : Int) + 1)).bind = STB_GLOBAL ∧
        (rd [sym_a_B, sym_a_A] ((0 : Nat) : Int)).is_defined ≠ 0 ∧
        (rd [sym_a_B, sym_a_A] (((0 : Nat) : Int) + 1)).is_defined ≠ 0)) := by
  have hs : ∀ p q : Nat, p < q → q < [sym_a_B, sym_a_A].length →
      cmp_entry (rd [sym_a_B, sym_a_A] p) (rd [sym_a_B, sym_a_A] q) ≤ 0 := by
    intro p q hpq hq
    simp only [List.length_cons, List.length_nil] at hq
    have hq1 : q = 1 := by omega
    have hp0 : p = 0 := by omega
    subst hq1
    subst hp0
    decide
  exact ⟨hs, by decide, conflict_condition_iff [sym_a_B, sym_a_A] 0 hs (by decide)⟩

/-- C18, as stated, fails: two records of one name and binding with the section
indices `1` and `2` are both defined, so the key tuple with a boolean defined
flag orders them by type, the first one last; `cmp_entry` compares the stored
flag values `1` and `2` and puts the first one first. -/
theorem cmp_entry_compares_flag_value :
    cmp_entry obj_in_section_1 obj_in_section_2 < 0 ∧
      key_compare_flag obj_in_section_1 obj_in_section_2 = Ordering.gt := by
  decide

/-- C18, amended: `cmp_entry(l, r)` is negative, zero or positive exactly when the
key tuple of `l` is lexicographically smaller than, equal to or greater than
that of `r`, the key tuple being (name as a byte string, binding, stored value
of the defined flag, type). -/
theorem cmp_entry_is_key_order (l r : entry) :
    (cmp_entry l r < 0 ↔ key_compare l r = Ordering.lt) ∧
    (cmp_entry l r = 0 ↔ key_compare l r = Ordering.eq) ∧
    (0 < cmp_entry l r ↔ key_compare l r = Ordering.gt) :=
  cmp_entry_sign l r

/-- C19, evaluated on the code: the same five records, collected with the
modules in the order A, B, C and in the order A, C, B. Both sorted vectors hold
the run `a, a` followed by the run `b, b, b`; the scan reports the last two
entries of the second run, and these are `b@libA.so, b@libB.so` in one case and
`b@libC.so, b@libA.so` in the other: `b@libB.so` is a member of a reported group
for the first collection and of none for the second. -/
theorem groups_depend_on_collection_order :
    collected_abc.Perm collected_acb ∧
    detect collected_abc = some [[sym_a_B, sym_a_A], [sym_b_A, sym_b_B]] ∧
    detect collected_acb = some [[sym_a_B, sym_a_A], [sym_b_C, sym_b_A]] ∧
    (∃ g ∈ [[sym_a_B, sym_a_A], [sym_b_A, sym_b_B]], sym_b_B ∈ g) ∧
    (∀ g ∈ [[sym_a_B, sym_a_A], [sym_b_C, sym_b_A]], sym_b_B ∉ g) := by
  decide

end Dlconflict
